import Mathlib

/-!
Verification of the Koopa IR core (value/use graph engine).

The development shallowly embeds the four source files:

* `core.rs`   — the `Use`/`Value`/`User` def-use protocol (namespace `DefUse`);
* `structs.rs` — the basic-block instruction container (namespace `Blocks`);
* `values.rs` — the canonicalizing constant pools (namespace `Pools`);
* `dfg.rs`    — the handle/arena representation `DataFlowGraph`
  (namespace `Arena`).

Graph nodes (`Rc` pointers in the source) are identified by natural-number
ids; `Rc` identity becomes id equality.  Operations that panic are embedded
as `Option`- or `Except`-valued functions, where an `Except.error` carries
the state of the graph at the moment the assertion fired.
-/

set_option maxHeartbeats 1000000
set_option maxRecDepth 8192

namespace DefUse

/-- One `Use` edge (`core.rs`, `struct Use`): the id of the value the use
points at (`value: NodeRc`) and the id of the user owning it
(`user: NodeRef`).  The intrusive `link` is represented by membership in
the per-value use lists of the state. -/
structure UseData where
  value : Nat
  user : Nat
deriving DecidableEq

/-- State of the def-use graph of `core.rs`: the allocated `Use` objects,
each value's use list (`ValueData.uses`; front of the linked list at the
head, `add_use` pushes at the back), and each user's ordered operand
vector (the `Rc<Use>` slots a `User` owns).  `set_value` and
`replace_all_uses_with` never touch the operand vectors: an operand slot
keeps holding the same `Rc<Use>`, only the use's `value` field changes. -/
@[ext]
structure St where
  uses : Nat → Option UseData
  useList : Nat → List Nat
  operands : Nat → List Nat

/-- Remove the first occurrence of `a` (the cursor removal
`cursor_mut_from_ptr(..).remove()`; a `Use` object is on exactly one list
once, so the first occurrence is the node itself). -/
def eraseFirst : List Nat → Nat → List Nat
  | [], _ => []
  | x :: t, a => if x = a then t else x :: eraseFirst t a

/-- `Use::set_value(new_value)`: detach the use from its old value's use
list (`remove_use`), overwrite the `value` field, then attach it to the
new value's use list (`add_use`, pushed at the back). -/
def setValue (s : St) (u : Nat) (nv : Nat) : St :=
  match s.uses u with
  | none => s
  | some d =>
    let afterRemove : Nat → List Nat :=
      fun y => if y = d.value then eraseFirst (s.useList y) u else s.useList y
    { uses := fun x => if x = u then some ⟨nv, d.user⟩ else s.uses x
      useList := fun y => if y = nv then afterRemove nv ++ [u] else afterRemove y
      operands := s.operands }

/-- `ValueData::replace_all_uses_with(value)`, fuel-indexed: while the use
list of `v` is non-empty, call `set_value nv` on its front.  `none` means
the loop did not finish within `fuel` iterations. -/
def rauw : Nat → St → Nat → Nat → Option St
  | 0, s, v, _ => if s.useList v = [] then some s else none
  | fuel + 1, s, v, nv =>
    match s.useList v with
    | [] => some s
    | u :: _ => rauw fuel (setValue s u nv) v nv

/-- `Use::new(value, user)`: allocate a fresh `Use` with the given fields
and register it on `value`'s use list (`add_use`, at the back).  The fresh
id `uid` plays the role of the new `Rc<Use>`'s address. -/
def useNew (s : St) (uid v w : Nat) : St :=
  { uses := fun x => if x = uid then some ⟨v, w⟩ else s.uses x
    useList := fun y => if y = v then s.useList v ++ [uid] else s.useList y
    operands := s.operands }

/-- `Use::new` followed by the caller storing the returned `Rc<Use>` into
the creating user's operand slot, as at its call sites (e.g.
`Aggregate::new` collecting each created use into the operand vector). -/
def useNewStored (s : St) (uid v w : Nat) : St :=
  let s1 := useNew s uid v w
  { s1 with operands := fun x => if x = w then s1.operands w ++ [uid] else s1.operands x }

/-- Example state for the def-use theorems: use `5` points at value `0`
and is owned by user `9`, whose single operand it is. -/
def exSt : St where
  uses := fun x => if x = 5 then some ⟨0, 9⟩ else none
  useList := fun y => if y = 0 then [5] else []
  operands := fun x => if x = 9 then [5] else []

end DefUse

namespace Blocks

/-- Value kinds of the era of `structs.rs`.  Modelled from the spec: the
`ValueKind` enum of this era's `core.rs` is not under `src/`; the spec's
value-kind catalogue lists constants (Integer, ZeroInit, Undef), composite
(Aggregate), references (ArgRef, GlobalAlloc) and the instructions (Alloc,
Load, Store, GetPtr/GetElemPtr, Binary, Branch, Jump, Call, Return, Phi).
A `Branch` stores its two targets in order true-target, false-target and
`targets()` returns them in that order; `Jump` stores its one target. -/
inductive SKind where
  | integer (value : Int)
  | zeroInit
  | undef
  | aggregate
  | argRef (index : Nat)
  | globalAlloc
  | alloc
  | load
  | store
  | getPtr
  | getElemPtr
  | binary
  | branch (trueBB falseBB : Nat)
  | jump (target : Nat)
  | call
  | ret
  | phi
deriving DecidableEq

/-- Modelled from the spec: `is_inst` of the missing era `core.rs` —
whether a value kind is an instruction kind. -/
def SKind.isInst : SKind → Bool
  | .alloc | .load | .store | .getPtr | .getElemPtr | .binary
  | .branch _ _ | .jump _ | .call | .ret | .phi => true
  | _ => false

/-- A value node as seen by `structs.rs`: its kind and the owning-block
back-pointer `inner.bb` (`None` when the instruction is in no block). -/
structure SValue where
  kind : SKind
  bb : Option Nat
deriving DecidableEq

/-- `BasicBlockInner`: predecessor list and the ordered instruction list
(ids of the owned instruction values). -/
structure SBlock where
  preds : List Nat
  insts : List Nat
deriving DecidableEq

/-- State for `structs.rs`: the stores of value nodes and blocks, plus
each value's incoming-use list (as in `core.rs`), carried along so that
the frame conditions of the block operations on the def-use edges can be
expressed.  None of the block operations touches `useList`. -/
@[ext]
structure SState where
  values : Nat → Option SValue
  blocks : Nat → Option SBlock
  useList : Nat → List Nat

/-- Remove the first occurrence (cursor unlink at the instruction's own
list position). -/
def eraseFirst : List Nat → Nat → List Nat
  | [], _ => []
  | x :: t, a => if x = a then t else x :: eraseFirst t a

/-- Replace the first occurrence of `a` by `b`
(`cursor_mut_from_ptr(..).replace_with(new)`). -/
def replaceFirst : List Nat → Nat → Nat → List Nat
  | [], _, _ => []
  | x :: t, a, b => if x = a then b :: t else x :: replaceFirst t a b

/-- `BasicBlockInner::succs`: derived from the last instruction only —
`Branch` yields `[true_bb, false_bb]` (via `targets()`), `Jump` yields
`[target]`, anything else (or an empty list) yields `[]`. -/
def succs (s : SState) (b : SBlock) : List Nat :=
  match b.insts.getLast? with
  | none => []
  | some i =>
    match s.values i with
    | some v =>
      match v.kind with
      | .branch t f => [t, f]
      | .jump t => [t]
      | _ => []
    | none => []

/-- `BasicBlockInner::add_inst`: asserts `inst.is_inst()` and that the
instruction's back-pointer is `None`, sets the back-pointer to this block
and appends the instruction at the back of the list.  `none` embeds the
panic. -/
def addInst (s : SState) (bid iid : Nat) : Option SState :=
  match s.blocks bid, s.values iid with
  | some blk, some v =>
    if v.kind.isInst then
      if v.bb = none then
        some { s with
          values := fun x => if x = iid then some { v with bb := some bid } else s.values x
          blocks := fun y => if y = bid then some { blk with insts := blk.insts ++ [iid] } else s.blocks y }
      else none
    else none
  | _, _ => none

/-- `BasicBlockInner::remove_inst`: asserts the instruction's back-pointer
matches this block, clears it and unlinks the instruction from the list at
its own position. -/
def removeInst (s : SState) (bid iid : Nat) : Option SState :=
  match s.blocks bid, s.values iid with
  | some blk, some v =>
    if v.bb = some bid then
      some { s with
        values := fun x => if x = iid then some { v with bb := none } else s.values x
        blocks := fun y => if y = bid then some { blk with insts := eraseFirst blk.insts iid } else s.blocks y }
    else none
  | _, _ => none

/-- `BasicBlockInner::replace_inst`: asserts `inst`'s back-pointer matches
this block, clears it, asserts `new` is a free instruction, sets `new`'s
back-pointer and substitutes `new` at `inst`'s exact list position.
`new = inst` is a panic as well: `new.inner_mut()` is taken while `inst`'s
`RefMut` guard is still live, so the same node triggers the runtime
borrow check. -/
def replaceInst (s : SState) (bid oldI newI : Nat) : Option SState :=
  match s.blocks bid, s.values oldI with
  | some blk, some vOld =>
    if vOld.bb = some bid then
      if newI = oldI then none
      else
        match s.values newI with
        | some vNew =>
          if vNew.kind.isInst then
            if vNew.bb = none then
              some { s with
                values := fun x =>
                  if x = newI then some { vNew with bb := some bid }
                  else if x = oldI then some { vOld with bb := none }
                  else s.values x
                blocks := fun y => if y = bid then some { blk with insts := replaceFirst blk.insts oldI newI } else s.blocks y }
            else none
          else none
        | none => none
    else none
  | _, _ => none

/-- Example state for the block theorems: block `0` holds instructions
`[10, 11]` where `11` is a `Jump` to block `2`; the values `12` (a free
`Binary` instruction) and `13` (an integer constant) are in no block. -/
def exS : SState where
  values := fun x =>
    if x = 10 then some ⟨.binary, some 0⟩
    else if x = 11 then some ⟨.jump 2, some 0⟩
    else if x = 12 then some ⟨.binary, none⟩
    else if x = 13 then some ⟨.integer 1, none⟩
    else none
  blocks := fun y => if y = 0 then some ⟨[], [10, 11]⟩ else none
  useList := fun _ => []

end Blocks

namespace Pools

/-- Type descriptors.  Modelled from the spec: `types.rs` is not under
`src/`; the spec lists the kinds unit, i32, array, pointer, function and
structural equality. -/
inductive PType where
  | i32
  | unit
  | array (base : PType) (len : Nat)
  | pointer (base : PType)
deriving DecidableEq

/-- A pooled constant node: its type and, for `ValueKind::Integer`, the
literal payload (`Integer { value: i32 }` in `values.rs`). -/
structure PNode where
  ty : PType
  intVal : Int
deriving DecidableEq

/-- State of the `Integer` pool of `values.rs`: the content-keyed cache
(`HashMap<i32, ValueRc>`), the allocated nodes by id (`Rc` identity), and
the fresh-id supply (a fresh `Rc` allocation never collides with a live
node). -/
structure PoolSt where
  pool : Int → Option Nat
  nodes : Nat → Option PNode
  next : Nat

/-- `Integer::new(value)`: probe the pool by the literal value and return
the cached shared node on a hit; otherwise create a node of type `i32`
with the given payload, cache it and return it. -/
def integerNew (s : PoolSt) (n : Int) : PoolSt × Nat :=
  match s.pool n with
  | some id => (s, id)
  | none =>
    ({ pool := fun m => if m = n then some s.next else s.pool m
       nodes := fun x => if x = s.next then some ⟨PType.i32, n⟩ else s.nodes x
       next := s.next + 1 }, s.next)

/-- Pool well-formedness: every cached entry is a live node bearing type
`i32` and exactly the payload it is keyed by, and its id is below the
fresh-id supply. -/
def PoolWF (s : PoolSt) : Prop :=
  ∀ n id, s.pool n = some id → id < s.next ∧ s.nodes id = some ⟨PType.i32, n⟩

/-- The empty pool state. -/
def emptyPool : PoolSt where
  pool := fun _ => none
  nodes := fun _ => none
  next := 0

end Pools

namespace Arena

/-- Type descriptors for the `dfg.rs` era.  Modelled from the spec:
`types.rs` of this era is not under `src/`; kinds per the spec are unit,
i32, array, pointer (function types are carried by function handles and
do not occur in the claims), with structural equality. -/
inductive EType where
  | i32
  | unit
  | array (base : EType) (len : Nat)
  | pointer (base : EType)
deriving DecidableEq

/-- Binary operators.  Modelled from the spec: the operator enum lives in
the missing `entities.rs`; it is only ever compared for equality. -/
inductive BinaryOp where
  | notEq | eq | gt | lt | ge | le
  | add | sub | mul | div | mod
  | and | or | xor | shl | shr | sar
deriving DecidableEq

/-- Value kinds of the `dfg.rs` era.  Modelled from the spec and the
exhaustive match of `DataFlowGraph::data_eq` (the defining `entities.rs`
is not under `src/`): each kind carries the payload `data_eq` compares
(integer literal, arg-ref index, branch targets, call callee, …) and the
value/basic-block handles it uses. -/
inductive EValueKind where
  | integer (value : Int)
  | zeroInit
  | undef
  | aggregate (elems : List Nat)
  | funcArgRef (index : Nat)
  | blockArgRef (index : Nat)
  | alloc
  | globalAlloc (init : Nat)
  | load (src : Nat)
  | store (value : Nat) (dest : Nat)
  | getPtr (src : Nat) (index : Nat)
  | getElemPtr (src : Nat) (index : Nat)
  | binary (op : BinaryOp) (lhs rhs : Nat)
  | branch (cond : Nat) (trueBB falseBB : Nat)
  | jump (target : Nat)
  | call (callee : Nat) (args : List Nat)
  | ret (value : Option Nat)
deriving DecidableEq

/-- Modelled from the spec: `ValueKind::value_uses` of the missing
`entities.rs` — the value handles a kind's operands reference, in operand
order. -/
def EValueKind.valueUses : EValueKind → List Nat
  | .aggregate es => es
  | .globalAlloc i => [i]
  | .load s => [s]
  | .store v d => [v, d]
  | .getPtr s i => [s, i]
  | .getElemPtr s i => [s, i]
  | .binary _ l r => [l, r]
  | .branch c _ _ => [c]
  | .call _ as => as
  | .ret (some v) => [v]
  | _ => []

/-- Modelled from the spec: `ValueKind::bb_uses` of the missing
`entities.rs` — the basic-block handles a kind references. -/
def EValueKind.bbUses : EValueKind → List Nat
  | .branch _ t f => [t, f]
  | .jump t => [t]
  | _ => []

/-- `ValueData` of the `dfg.rs` era (modelled from the spec, `entities.rs`
missing): the type, the kind, and the `used_by` set of value handles that
use this value.  Freshly constructed data carries an empty `used_by`. -/
structure EValueData where
  ty : EType
  kind : EValueKind
  usedBy : Finset Nat
deriving DecidableEq

/-- `BasicBlockData` (modelled from the spec, `entities.rs` missing):
only its `used_by` set of value handles matters here. -/
structure EBBData where
  usedBy : Finset Nat
deriving DecidableEq

/-- Association-list lookup: the embedding of `HashMap::get` (first
binding of the key). -/
def alook {α : Type} : List (Nat × α) → Nat → Option α
  | [], _ => none
  | (k, v) :: t, k' => if k = k' then some v else alook t k'

/-- `HashMap::insert`: overwrite the binding of the key, else append. -/
def ains {α : Type} : List (Nat × α) → Nat → α → List (Nat × α)
  | [], k, v => [(k, v)]
  | (k0, v0) :: t, k, v => if k0 = k then (k, v) :: t else (k0, v0) :: ains t k v

/-- `HashMap::remove`: drop the bindings of the key. -/
def aerase {α : Type} : List (Nat × α) → Nat → List (Nat × α)
  | [], _ => []
  | (k0, v0) :: t, k => if k0 = k then aerase t k else (k0, v0) :: aerase t k

/-- `HashMap::get_mut` followed by an in-place modification. -/
def amod {α : Type} : List (Nat × α) → Nat → (α → α) → List (Nat × α)
  | [], _, _ => []
  | (k0, v0) :: t, k, f => if k0 = k then (k0, f v0) :: amod t k f else (k0, v0) :: amod t k f

/-- `DataFlowGraph`: the shared global value table, the per-function value
table and the basic-block table. -/
structure DFG where
  globals : List (Nat × EValueData)
  values : List (Nat × EValueData)
  bbs : List (Nat × EBBData)
deriving DecidableEq

/-- The `data!` macro: resolve a value handle through the global table
first, then the local one; panics (`expect`) if absent. -/
def dataGet (g : DFG) (v : Nat) : Option EValueData :=
  match alook g.globals v with
  | some d => some d
  | none => alook g.values v

/-- The `data_mut!` macro followed by a field update: modify the value
data behind the handle (global table first), `Except.error` carrying the
graph when the `expect("value does not exist")` panic fires. -/
def modData (g : DFG) (v : Nat) (f : EValueData → EValueData) : Except DFG DFG :=
  match alook g.globals v with
  | some _ => .ok { g with globals := amod g.globals v f }
  | none =>
    match alook g.values v with
    | some _ => .ok { g with values := amod g.values v f }
    | none => .error g

/-- `DataFlowGraph::bb_mut` followed by a field update; panics if the
basic block does not exist. -/
def modBB (g : DFG) (b : Nat) (f : EBBData → EBBData) : Except DFG DFG :=
  match alook g.bbs b with
  | some _ => .ok { g with bbs := amod g.bbs b f }
  | none => .error g

/-- A `for v in ... { data_mut!(self, v).used_by ... }` loop over value
handles. -/
def modDataAll (f : EValueData → EValueData) : DFG → List Nat → Except DFG DFG
  | g, [] => .ok g
  | g, v :: t =>
    match modData g v f with
    | .ok g1 => modDataAll f g1 t
    | .error g1 => .error g1

/-- A `for bb in ... { self.bb_mut(bb).used_by ... }` loop over basic
block handles. -/
def modBBAll (f : EBBData → EBBData) : DFG → List Nat → Except DFG DFG
  | g, [] => .ok g
  | g, b :: t =>
    match modBB g b f with
    | .ok g1 => modBBAll f g1 t
    | .error g1 => .error g1

/-- Insert `w` into a value data's `used_by` set. -/
def insUB (w : Nat) (d : EValueData) : EValueData :=
  { d with usedBy := insert w d.usedBy }

/-- Remove `w` from a value data's `used_by` set. -/
def remUB (w : Nat) (d : EValueData) : EValueData :=
  { d with usedBy := d.usedBy.erase w }

/-- Insert `w` into a basic block data's `used_by` set. -/
def insUBbb (w : Nat) (d : EBBData) : EBBData :=
  { d with usedBy := insert w d.usedBy }

/-- Remove `w` from a basic block data's `used_by` set. -/
def remUBbb (w : Nat) (d : EBBData) : EBBData :=
  { d with usedBy := d.usedBy.erase w }

/-- `DataFlowGraph::new_value`: register the fresh handle `nv` (the
`next_value_id()` result) in the `used_by` set of every value and basic
block the data uses, then insert the data into the local value table. -/
def newValue (g : DFG) (nv : Nat) (data : EValueData) : Except DFG DFG :=
  match modDataAll (insUB nv) g data.kind.valueUses with
  | .error g1 => .error g1
  | .ok g1 =>
    match modBBAll (insUBbb nv) g1 data.kind.bbUses with
    | .error g2 => .error g2
    | .ok g2 => .ok { g2 with values := ains g2.values nv data }

/-- `DataFlowGraph::replace_value_with`: remove the old data of `v` from
the local table, unregister `v` from the `used_by` sets of everything the
old data used, register it with everything the new data uses, insert the
new data under the same handle, and return the old data. -/
def replaceValueWith (g : DFG) (v : Nat) (data : EValueData) :
    Except DFG (DFG × EValueData) :=
  match alook g.values v with
  | none => .error g
  | some old =>
    let g0 : DFG := { g with values := aerase g.values v }
    match modDataAll (remUB v) g0 old.kind.valueUses with
    | .error g1 => .error g1
    | .ok g1 =>
      match modBBAll (remUBbb v) g1 old.kind.bbUses with
      | .error g2 => .error g2
      | .ok g2 =>
        match modDataAll (insUB v) g2 data.kind.valueUses with
        | .error g3 => .error g3
        | .ok g3 =>
          match modBBAll (insUBbb v) g3 data.kind.bbUses with
          | .error g4 => .error g4
          | .ok g4 => .ok ({ g4 with values := ains g4.values v data }, old)

/-- `DataFlowGraph::remove_value`: remove the data of `v` from the local
table (this happens first), then assert its `used_by` set is empty (the
`Except.error` carries the graph with `v` already removed when the
assertion fires), then unregister `v` from the `used_by` sets of
everything the data used and return the data. -/
def removeValue (g : DFG) (v : Nat) : Except DFG (DFG × EValueData) :=
  match alook g.values v with
  | none => .error g
  | some data =>
    let g0 : DFG := { g with values := aerase g.values v }
    if data.usedBy = ∅ then
      match modDataAll (remUB v) g0 data.kind.valueUses with
      | .error g1 => .error g1
      | .ok g1 =>
        match modBBAll (remUBbb v) g1 data.kind.bbUses with
        | .error g2 => .error g2
        | .ok g2 => .ok (g2, data)
    else .error g0

/-- The kind-specific head of `DataFlowGraph::data_eq`'s `match`:
`some b` embeds an early `return b`, `none` embeds falling through to the
operand loop. -/
def kindEqCheck : EValueKind → EValueKind → Option Bool
  | .integer l, .integer r => if l ≠ r then some false else none
  | .zeroInit, .zeroInit => some true
  | .undef, .undef => some true
  | .aggregate _, .aggregate _ => none
  | .funcArgRef l, .funcArgRef r => if l ≠ r then some false else none
  | .blockArgRef l, .blockArgRef r => if l ≠ r then some false else none
  | .alloc, .alloc => some true
  | .globalAlloc _, .globalAlloc _ => none
  | .load _, .load _ => none
  | .store _ _, .store _ _ => none
  | .getPtr _ _, .getPtr _ _ => none
  | .getElemPtr _ _, .getElemPtr _ _ => none
  | .binary lop _ _, .binary rop _ _ => if lop ≠ rop then some false else none
  | .branch _ lt lf, .branch _ rt rf => if lt ≠ rt ∨ lf ≠ rf then some false else none
  | .jump l, .jump r => if l ≠ r then some false else none
  | .call lc _, .call rc _ => if lc ≠ rc then some false else none
  | .ret l, .ret r => if l.isSome ≠ r.isSome then some false else none
  | _, _ => some false

/-- `DataFlowGraph::data_eq`, fuel-indexed (the source recursion is
unbounded and undefined on cyclic operand graphs): type equality first,
then the kind-specific payload comparison, then the pairwise recursion
over the zipped operand lists via `value_eq`.  `none` embeds both fuel
exhaustion (at the point the operand recursion would be entered) and the
`data!` panic on a missing operand handle. -/
def dataEqF : Nat → DFG → EValueData → EValueData → Option Bool
  | 0, _, l, r =>
    if l.ty ≠ r.ty then some false
    else
      match kindEqCheck l.kind r.kind with
      | some b => some b
      | none => none
  | fuel + 1, g, l, r =>
    if l.ty ≠ r.ty then some false
    else
      match kindEqCheck l.kind r.kind with
      | some b => some b
      | none =>
        (l.kind.valueUses.zip r.kind.valueUses).foldl
          (fun acc p =>
            match acc with
            | none => none
            | some false => some false
            | some true =>
              match dataGet g p.1, dataGet g p.2 with
              | some dl, some dr => dataEqF fuel g dl dr
              | _, _ => none)
          (some true)

/-- `DataFlowGraph::value_eq`: resolve both handles (global table first)
and compare their data structurally. -/
def valueEqF (fuel : Nat) (g : DFG) (l r : Nat) : Option Bool :=
  match dataGet g l, dataGet g r with
  | some dl, some dr => dataEqF fuel g dl dr
  | _, _ => none

/-- Both tables resolve a handle to at most one binding and the global
and local key spaces are disjoint (value ids come from one process-wide
counter). -/
def Disj (g : DFG) : Prop :=
  ∀ k, (alook g.globals k).isSome → alook g.values k = none

/-- Every handle a present local value's data references exists. -/
def Closed (g : DFG) : Prop :=
  ∀ w dw, alook g.values w = some dw →
    (∀ u ∈ dw.kind.valueUses, (dataGet g u).isSome) ∧
    (∀ b ∈ dw.kind.bbUses, (alook g.bbs b).isSome)

/-- Def-use consistency for values: `w` is in `u`'s `used_by` set exactly
when the local value `w` exists and its data lists `u` among its value
uses. -/
def ValCons (g : DFG) : Prop :=
  ∀ u du, dataGet g u = some du →
    ∀ w, w ∈ du.usedBy ↔ ∃ dw, alook g.values w = some dw ∧ u ∈ dw.kind.valueUses

/-- Def-use consistency for basic blocks: a block's `used_by` set contains
exactly the local value handles whose data lists the block among its
block uses. -/
def BBCons (g : DFG) : Prop :=
  ∀ b db, alook g.bbs b = some db →
    ∀ w, w ∈ db.usedBy ↔ ∃ dw, alook g.values w = some dw ∧ b ∈ dw.kind.bbUses

/-- The bidirectional use-record invariant of the data flow graph. -/
def Inv (g : DFG) : Prop :=
  Disj g ∧ Closed g ∧ ValCons g ∧ BBCons g

/-- Example graph: the integer constant `0` is used (twice) by the binary
instruction `1`. -/
def exG : DFG where
  globals := []
  values := [(0, ⟨.i32, .integer 5, {1}⟩), (1, ⟨.i32, .binary .add 0 0, ∅⟩)]
  bbs := []

/-- `exG` after `remove_value 0` has fired its `used_by` assertion: the
value `0` is already gone from the local table. -/
def exGRemoved : DFG where
  globals := []
  values := [(1, ⟨.i32, .binary .add 0 0, ∅⟩)]
  bbs := []

/-- A freshly constructed replacement data for value `0`: empty
`used_by`, as every `ValueData` constructor produces. -/
def exFresh : EValueData := ⟨.i32, .integer 7, ∅⟩

/-- `exG` after `replace_value_with 0 exFresh`: the use-record of `1`
using `0` has been lost. -/
def exGBroken : DFG where
  globals := []
  values := [(1, ⟨.i32, .binary .add 0 0, ∅⟩), (0, exFresh)]
  bbs := []

/-- A graph with two integer data of different types, for the `value_eq`
witness. -/
def exG3 : DFG where
  globals := []
  values := [(0, ⟨.i32, .integer 5, ∅⟩), (1, ⟨.unit, .integer 5, ∅⟩)]
  bbs := []

end Arena

namespace DefUse

theorem eraseFirst_cons_self (a : Nat) (l : List Nat) : eraseFirst (a :: l) a = l := by
  simp [eraseFirst]

/-- C1 (amended): for every value `v` and every value `v2` that is a
different node from `v`, after `v.replace_all_uses_with(v2)` (which then
terminates, in exactly as many loop iterations as `v` has uses): `v`'s
use list is empty, every `Use` formerly in `v`'s use list now holds `v2`
as its value with its user unchanged (so every former user's
corresponding operand points at `v2`), all other `Use` objects are
untouched, and the operand vector of every user — hence the operand order
of every multi-operand user — is unchanged.  The uses moved to `v2`'s use
list keep their relative order, appended at its back. -/
theorem replace_all_uses_with_spec (v nv : Nat) (hne : v ≠ nv) :
    ∀ (L : List Nat) (s : St), s.useList v = L → L.Nodup →
      (∀ u ∈ L, ∃ d, s.uses u = some d ∧ d.value = v) →
      ∃ s', rauw L.length s v nv = some s' ∧
        s'.useList v = [] ∧
        s'.useList nv = s.useList nv ++ L ∧
        (∀ y, y ≠ v → y ≠ nv → s'.useList y = s.useList y) ∧
        (∀ u ∈ L, ∃ d, s.uses u = some d ∧ s'.uses u = some ⟨nv, d.user⟩) ∧
        (∀ x, x ∉ L → s'.uses x = s.uses x) ∧
        s'.operands = s.operands := by
  intro L
  induction L with
  | nil =>
    intro s hL _ _
    refine ⟨s, ?_, hL, by simp, fun y _ _ => rfl, by simp, fun x _ => rfl, rfl⟩
    simp [rauw, hL]
  | cons u rest ih =>
    intro s hL hnd hpts
    obtain ⟨d, hd, hdv⟩ := hpts u (by simp)
    have hu_rest : u ∉ rest := by
      have := List.nodup_cons.mp hnd
      exact this.1
    set s1 := setValue s u nv with hs1
    have hs1uses : s1.uses = fun x => if x = u then some ⟨nv, d.user⟩ else s.uses x := by
      simp [hs1, setValue, hd]
    have hs1list : s1.useList = fun y =>
        if y = nv then s.useList nv ++ [u]
        else if y = v then rest else s.useList y := by
      funext y
      simp only [hs1, setValue, hd]
      by_cases hynv : y = nv
      · subst hynv
        have : ¬ (y = d.value) := by rw [hdv]; exact fun h => hne h.symm
        simp [this]
      · by_cases hyv : y = v
        · subst hyv
          simp [hynv, hdv, hL, eraseFirst_cons_self]
        · have : ¬ (y = d.value) := by rw [hdv]; exact hyv
          simp [hynv, hyv, this]
    have hs1ops : s1.operands = s.operands := by
      simp [hs1, setValue, hd]
    have hs1v : s1.useList v = rest := by
      rw [hs1list]; simp [hne]
    have hpts1 : ∀ u' ∈ rest, ∃ d', s1.uses u' = some d' ∧ d'.value = v := by
      intro u' hu'
      obtain ⟨d', hd', hdv'⟩ := hpts u' (by simp [hu'])
      refine ⟨d', ?_, hdv'⟩
      rw [hs1uses]
      have : ¬ (u' = u) := fun h => hu_rest (h ▸ hu')
      simp [this, hd']
    obtain ⟨s', hr, hv0, hnvl, hframe, hmoved, hother, hops⟩ :=
      ih s1 hs1v (List.nodup_cons.mp hnd).2 hpts1
    refine ⟨s', ?_, hv0, ?_, ?_, ?_, ?_, by rw [hops, hs1ops]⟩
    · show rauw (rest.length + 1) s v nv = some s'
      rw [rauw, hL]
      exact hr
    · rw [hnvl, hs1list]; simp
    · intro y hyv hynv
      rw [hframe y hyv hynv, hs1list]
      simp [hyv, hynv]
    · intro u' hu'
      rcases List.mem_cons.mp hu' with h | h
      · subst h
        refine ⟨d, hd, ?_⟩
        rw [hother u' hu_rest, hs1uses]
        simp
      · obtain ⟨d', hd', hval⟩ := hmoved u' h
        refine ⟨d', ?_, hval⟩
        rw [hs1uses] at hd'
        have : ¬ (u' = u) := fun hh => hu_rest (hh ▸ h)
        simpa [this] using hd'
    · intro x hx
      rw [hother x (fun h => hx (by simp [h])), hs1uses]
      have : ¬ (x = u) := fun h => hx (by simp [h])
      simp [this]

theorem replace_all_uses_with_spec_witness :
    ∃ s', rauw 1 exSt 0 1 = some s' ∧ s'.useList 0 = [] ∧ s'.operands = exSt.operands := by
  obtain ⟨s', h1, h2, _, _, _, _, h7⟩ :=
    replace_all_uses_with_spec 0 1 (by decide) [5] exSt rfl (by decide)
      (by intro u hu; simp at hu; subst hu; exact ⟨⟨0, 9⟩, rfl, rfl⟩)
  exact ⟨s', h1, h2, h7⟩

/-- C1 counterexample: the claim quantifies over every `v2`, including
`v` itself.  With `v2 = v` and a non-empty use list, each iteration of
`replace_all_uses_with` removes the front use from `v`'s list and pushes
it back onto the same list, so the loop never terminates: no amount of
fuel produces a result.  (`exSt` has one use of value `0`.) -/
theorem replace_all_uses_with_self_diverges :
    ¬ ∃ (n : Nat) (s' : St), rauw n exSt 0 0 = some s' := by
  have h5 : exSt.uses 5 = some ⟨0, 9⟩ := rfl
  have hfix : setValue exSt 5 0 = exSt := by
    refine St.ext ?_ ?_ ?_
    · funext x
      simp only [setValue, h5]
      by_cases hx : x = 5
      · subst hx; simp [exSt]
      · simp [hx]
    · funext y
      simp only [setValue, h5]
      by_cases hy : y = 0
      · subst hy; simp [exSt, eraseFirst]
      · simp [hy, exSt]
    · simp [setValue, h5]
  have hall : ∀ n, rauw n exSt 0 0 = none := by
    intro n
    induction n with
    | zero => simp [rauw, exSt]
    | succ k ih =>
      have hL : exSt.useList 0 = [5] := rfl
      rw [rauw, hL]
      show rauw k (setValue exSt 5 0) 0 0 = none
      rw [hfix]
      exact ih
  rintro ⟨n, s', h⟩
  rw [hall n] at h
  exact Option.noConfusion h

/-- C2: `Use::new(v, w)` (with the returned use stored into `w`'s operand
slot, as at its call sites) appends the fresh edge at the back of `v`'s
use list — which therefore contains it exactly once, earlier entries and
their order untouched — and `v` immediately appears in `w`'s operand
list; no other value's use list and no other user's operands change. -/
theorem use_new_spec (s : St) (uid v w : Nat) (hnotin : uid ∉ s.useList v) :
    (useNewStored s uid v w).useList v = s.useList v ++ [uid] ∧
    ((useNewStored s uid v w).useList v).count uid = 1 ∧
    (useNewStored s uid v w).uses uid = some ⟨v, w⟩ ∧
    (useNewStored s uid v w).operands w = s.operands w ++ [uid] ∧
    (∃ u ∈ (useNewStored s uid v w).operands w,
      (useNewStored s uid v w).uses u = some ⟨v, w⟩) ∧
    (∀ y, y ≠ v → (useNewStored s uid v w).useList y = s.useList y) ∧
    (∀ x, x ≠ w → (useNewStored s uid v w).operands x = s.operands x) := by
  refine ⟨by simp [useNewStored, useNew], ?_, by simp [useNewStored, useNew], by simp [useNewStored, useNew], ?_, ?_, ?_⟩
  · have h1 : (useNewStored s uid v w).useList v = s.useList v ++ [uid] := by
      simp [useNewStored, useNew]
    rw [h1, List.count_append]
    rw [List.count_eq_zero.mpr hnotin]
    simp
  · refine ⟨uid, ?_, by simp [useNewStored, useNew]⟩
    simp [useNewStored, useNew]
  · intro y hy
    simp [useNewStored, useNew, hy]
  · intro x hx
    simp [useNewStored, useNew, hx]

theorem use_new_spec_witness :
    (useNewStored exSt 7 2 9).useList 2 = exSt.useList 2 ++ [7] ∧
    ((useNewStored exSt 7 2 9).useList 2).count 7 = 1 := by
  obtain ⟨h1, h2, _⟩ := use_new_spec exSt 7 2 9 (by simp [exSt])
  exact ⟨h1, h2⟩

end DefUse

namespace Blocks

/-- C3: a block's successors are derived from its last instruction only:
an empty instruction list gives `[]`, a last instruction that is neither
a `Branch` nor a `Jump` gives `[]`, a `Jump` to `B2` gives `[B2]`, and a
`Branch` with true target `B1` and false target `B2` gives `[B1, B2]` in
that order. -/
theorem succs_spec (s : SState) (b : SBlock) :
    (b.insts = [] → succs s b = []) ∧
    (∀ i v, b.insts.getLast? = some i → s.values i = some v →
      ((∀ t f, v.kind ≠ .branch t f) → (∀ t, v.kind ≠ .jump t) → succs s b = []) ∧
      (∀ t, v.kind = .jump t → succs s b = [t]) ∧
      (∀ t f, v.kind = .branch t f → succs s b = [t, f])) := by
  constructor
  · intro h
    simp [succs, h]
  · intro i v hi hv
    refine ⟨?_, ?_, ?_⟩
    · intro hnb hnj
      cases hk : v.kind <;>
        first
          | exact absurd hk (hnb _ _)
          | exact absurd hk (hnj _)
          | simp [succs, hi, hv, hk]
    · intro t ht
      simp [succs, hi, hv, ht]
    · intro t f ht
      simp [succs, hi, hv, ht]

theorem succs_spec_witness :
    succs exS ⟨[], [10, 11]⟩ = [2] :=
  ((succs_spec exS ⟨[], [10, 11]⟩).2 11 ⟨.jump 2, some 0⟩ (by decide) rfl).2.1 2 rfl

end Blocks

namespace Pools

/-- C4: `Integer::new` is canonicalizing: calling it twice with the same
literal returns the identical shared node and the second call is a cache
hit (the pool holds the node and the state does not change); calls with
distinct literals `n ≠ m` return distinct nodes; and the returned node
has type `i32` and integer payload `n`.  Pool well-formedness is
preserved. -/
theorem integer_new_canonical (s : PoolSt) (n m : Int) (hwf : PoolWF s) (hnm : n ≠ m) :
    integerNew (integerNew s n).1 n = ((integerNew s n).1, (integerNew s n).2) ∧
    (integerNew s n).1.pool n = some (integerNew s n).2 ∧
    (integerNew s n).1.nodes (integerNew s n).2 = some ⟨PType.i32, n⟩ ∧
    (integerNew (integerNew s n).1 m).2 ≠ (integerNew s n).2 ∧
    PoolWF (integerNew s n).1 := by
  rcases h : s.pool n with _ | id
  · -- cache miss: a fresh node of type i32 with payload n is created
    have hfst : integerNew s n =
        ({ pool := fun m' => if m' = n then some s.next else s.pool m'
           nodes := fun x => if x = s.next then some ⟨PType.i32, n⟩ else s.nodes x
           next := s.next + 1 }, s.next) := by
      simp [integerNew, h]
    refine ⟨?_, ?_, ?_, ?_, ?_⟩
    · rw [hfst]; simp [integerNew]
    · rw [hfst]; simp
    · rw [hfst]; simp
    · rw [hfst]
      have hmn : ¬ (m = n) := fun hh => hnm hh.symm
      rcases h2 : s.pool m with _ | id2
      · simp [integerNew, hmn, h2]
      · simp [integerNew, hmn, h2]
        have := (hwf m id2 h2).1
        omega
    · rw [hfst]
      intro n' id' h'
      by_cases hn' : n' = n
      · subst hn'
        simp only [if_pos rfl] at h'
        injection h' with h'
        subst h'
        exact ⟨by show s.next < s.next + 1; omega, by simp⟩
      · simp only [if_neg hn'] at h'
        obtain ⟨hlt, hnd⟩ := hwf n' id' h'
        have hne2 : ¬ (id' = s.next) := by omega
        refine ⟨by show id' < s.next + 1; omega, ?_⟩
        show (if id' = s.next then some ⟨PType.i32, n⟩ else s.nodes id') = some ⟨PType.i32, n'⟩
        simp [hne2, hnd]
  · -- cache hit: the shared node is returned, the state is unchanged
    have hfst : integerNew s n = (s, id) := by simp [integerNew, h]
    obtain ⟨hlt, hnd⟩ := hwf n id h
    refine ⟨?_, ?_, ?_, ?_, ?_⟩
    · rw [hfst]; simp [integerNew, h]
    · rw [hfst]; exact h
    · rw [hfst]; exact hnd
    · rw [hfst]
      rcases h2 : s.pool m with _ | id2
      · simp [integerNew, h2]
        omega
      · simp [integerNew, h2]
        obtain ⟨_, hnd2⟩ := hwf m id2 h2
        intro hcontra
        rw [hcontra, hnd] at hnd2
        injection hnd2 with hh
        injection hh with hty hval
        exact hnm hval
    · rw [hfst]; exact hwf

theorem integer_new_canonical_witness :
    (integerNew (integerNew emptyPool 5).1 6).2 ≠ (integerNew emptyPool 5).2 ∧
    (integerNew emptyPool 5).1.nodes (integerNew emptyPool 5).2 = some ⟨PType.i32, 5⟩ := by
  obtain ⟨_, _, h3, h4, _⟩ :=
    integer_new_canonical emptyPool 5 6 (by intro n id h; simp [emptyPool] at h) (by decide)
  exact ⟨h4, h3⟩

end Pools

namespace Blocks

theorem eraseFirst_append_notMem (l : List Nat) (a : Nat) (h : a ∉ l) :
    eraseFirst (l ++ [a]) a = l := by
  induction l with
  | nil => simp [eraseFirst]
  | cons x t ih =>
    have hxa : ¬ (x = a) := fun hh => h (by simp [hh])
    simp only [List.cons_append, eraseFirst, if_neg hxa]
    show x :: eraseFirst (t ++ [a]) a = x :: t
    rw [ih (fun hm => h (List.mem_cons_of_mem _ hm))]

theorem replaceFirst_append (pre post : List Nat) (a b : Nat) (h : a ∉ pre) :
    replaceFirst (pre ++ a :: post) a b = pre ++ b :: post := by
  induction pre with
  | nil => simp [replaceFirst]
  | cons x t ih =>
    have hxa : ¬ (x = a) := fun hh => h (by simp [hh])
    simp only [List.cons_append, replaceFirst, if_neg hxa]
    show x :: replaceFirst (t ++ a :: post) a b = x :: (t ++ b :: post)
    rw [ih (fun hm => h (List.mem_cons_of_mem _ hm))]

/-- C5: `replace_inst(old, new)` on a block `b` holding `old` at a given
position, with `new` a free instruction, substitutes `new` at exactly that
position (everything else in the list, and its order, unchanged), clears
`old`'s back-pointer, sets `new`'s back-pointer to `b`, touches no other
value and no other block, and leaves every use list — in particular the
set of `Use`s pointing at `old` — unaffected.  It panics (`none`) when
`old`'s back-pointer does not match `b`, when `new` is not an
instruction, and when `new` already belongs to a block (including
`new = old`). -/
theorem replace_inst_spec (s : SState) (bid oldI newI : Nat) (blk : SBlock) (vOld : SValue)
    (hblk : s.blocks bid = some blk) (hold : s.values oldI = some vOld) :
    (∀ vNew pre post, vOld.bb = some bid → s.values newI = some vNew →
      vNew.kind.isInst = true → vNew.bb = none →
      blk.insts = pre ++ oldI :: post → oldI ∉ pre →
      ∃ s', replaceInst s bid oldI newI = some s' ∧
        s'.blocks bid = some { blk with insts := pre ++ newI :: post } ∧
        s'.values oldI = some { vOld with bb := none } ∧
        s'.values newI = some { vNew with bb := some bid } ∧
        (∀ x, x ≠ oldI → x ≠ newI → s'.values x = s.values x) ∧
        (∀ y, y ≠ bid → s'.blocks y = s.blocks y) ∧
        s'.useList = s.useList) ∧
    (vOld.bb ≠ some bid → replaceInst s bid oldI newI = none) ∧
    (∀ vNew, s.values newI = some vNew → vNew.kind.isInst = false →
      replaceInst s bid oldI newI = none) ∧
    (∀ vNew, s.values newI = some vNew → vNew.bb ≠ none →
      replaceInst s bid oldI newI = none) := by
  refine ⟨?_, ?_, ?_, ?_⟩
  · intro vNew pre post hbb hnew hinst hfree hpos hnotin
    have hne : ¬ (newI = oldI) := by
      intro hh
      subst hh
      rw [hold] at hnew
      injection hnew with hh2
      rw [hh2] at hbb
      rw [hfree] at hbb
      exact Option.noConfusion hbb
    refine ⟨{ s with
        values := fun x =>
          if x = newI then some { vNew with bb := some bid }
          else if x = oldI then some { vOld with bb := none }
          else s.values x
        blocks := fun y =>
          if y = bid then some { blk with insts := replaceFirst blk.insts oldI newI }
          else s.blocks y }, ?_, ?_, ?_, ?_, ?_, ?_, rfl⟩
    · simp [replaceInst, hblk, hold, hbb, hne, hnew, hinst, hfree]
    · show (if bid = bid then some { blk with insts := replaceFirst blk.insts oldI newI }
          else s.blocks bid) = _
      rw [if_pos rfl, hpos, replaceFirst_append pre post oldI newI hnotin]
    · show (if oldI = newI then some { vNew with bb := some bid }
          else if oldI = oldI then some { vOld with bb := none }
          else s.values oldI) = _
      rw [if_neg (Ne.symm hne), if_pos rfl]
    · show (if newI = newI then some { vNew with bb := some bid }
          else if newI = oldI then some { vOld with bb := none }
          else s.values newI) = _
      rw [if_pos rfl]
    · intro x hx1 hx2
      show (if x = newI then _ else if x = oldI then _ else s.values x) = s.values x
      rw [if_neg hx2, if_neg hx1]
    · intro y hy
      show (if y = bid then _ else s.blocks y) = s.blocks y
      rw [if_neg hy]
  · intro hbb
    simp [replaceInst, hblk, hold, hbb]
  · intro vNew hnew hinst
    by_cases hbb : vOld.bb = some bid
    · by_cases hne : newI = oldI
      · simp [replaceInst, hblk, hold, hbb, hne]
      · simp [replaceInst, hblk, hold, hbb, hne, hnew, hinst]
    · simp [replaceInst, hblk, hold, hbb]
  · intro vNew hnew hbbn
    by_cases hbb : vOld.bb = some bid
    · by_cases hne : newI = oldI
      · simp [replaceInst, hblk, hold, hbb, hne]
      · cases hinst : vNew.kind.isInst
        · simp [replaceInst, hblk, hold, hbb, hne, hnew, hinst]
        · simp [replaceInst, hblk, hold, hbb, hne, hnew, hinst, hbbn]
    · simp [replaceInst, hblk, hold, hbb]

theorem replace_inst_spec_witness :
    ∃ s', replaceInst exS 0 10 12 = some s' ∧
      s'.blocks 0 = some ⟨[], [12, 11]⟩ := by
  obtain ⟨h1, _⟩ := replace_inst_spec exS 0 10 12 ⟨[], [10, 11]⟩ ⟨.binary, some 0⟩ rfl rfl
  obtain ⟨s', hs1, hs2, _⟩ :=
    h1 ⟨.binary, none⟩ [] [11] rfl rfl rfl rfl rfl (by simp)
  exact ⟨s', hs1, hs2⟩

/-- C6: on a block `b` and a free instruction `i` (instruction kind,
back-pointer `None`, not yet in `b`'s list), `add_inst i` followed by
`remove_inst i` restores the state exactly: `i`'s back-pointer is `None`
again, `b`'s instruction list is as before the `add_inst`, and nothing
else changed — the final state equals the initial one. -/
theorem add_remove_inst_roundtrip (s : SState) (bid iid : Nat) (blk : SBlock) (v : SValue)
    (hblk : s.blocks bid = some blk) (hv : s.values iid = some v)
    (hinst : v.kind.isInst = true) (hfree : v.bb = none)
    (hnotin : iid ∉ blk.insts) :
    ∃ s1, addInst s bid iid = some s1 ∧ removeInst s1 bid iid = some s := by
  refine ⟨{ s with
      values := fun x => if x = iid then some { v with bb := some bid } else s.values x
      blocks := fun y => if y = bid then some { blk with insts := blk.insts ++ [iid] } else s.blocks y }, ?_, ?_⟩
  · simp [addInst, hblk, hv, hinst, hfree]
  · simp only [removeInst, ite_true]
    refine congrArg some (SState.ext ?_ ?_ rfl)
    · funext x
      by_cases hx : x = iid
      · subst hx
        simp [← hfree, hv]
      · simp [hx]
    · funext y
      by_cases hy : y = bid
      · subst hy
        simp [eraseFirst_append_notMem blk.insts iid hnotin, hblk]
      · simp [hy]

theorem add_remove_inst_roundtrip_witness :
    ∃ s1, addInst exS 0 12 = some s1 ∧ removeInst s1 0 12 = some exS := by
  exact add_remove_inst_roundtrip exS 0 12 ⟨[], [10, 11]⟩ ⟨.binary, none⟩ rfl rfl rfl rfl
    (by simp)

end Blocks

namespace Arena

theorem alook_ains {α : Type} (l : List (Nat × α)) (k : Nat) (v : α) (k' : Nat) :
    alook (ains l k v) k' = if k = k' then some v else alook l k' := by
  induction l with
  | nil => simp [ains, alook]
  | cons p t ih =>
    obtain ⟨k0, v0⟩ := p
    by_cases h0 : k0 = k
    · subst h0
      by_cases h1 : k0 = k' <;> simp [ains, alook, h1]
    · by_cases h1 : k0 = k'
      · subst h1
        have hkk : ¬ (k = k0) := fun hh => h0 hh.symm
        simp [ains, alook, h0, hkk]
      · simp [ains, alook, h0, h1, ih]

theorem alook_aerase {α : Type} (l : List (Nat × α)) (k : Nat) (k' : Nat) :
    alook (aerase l k) k' = if k = k' then none else alook l k' := by
  induction l with
  | nil => simp [aerase, alook]
  | cons p t ih =>
    obtain ⟨k0, v0⟩ := p
    by_cases h0 : k0 = k
    · subst h0
      rw [show aerase ((k0, v0) :: t) k0 = aerase t k0 from by simp [aerase], ih]
      by_cases h1 : k0 = k'
      · simp [h1]
      · simp [h1, alook]
    · by_cases h1 : k0 = k'
      · subst h1
        have hkk : ¬ (k = k0) := fun hh => h0 hh.symm
        simp [aerase, alook, h0, hkk]
      · simp [aerase, alook, h0, h1, ih]

theorem alook_amod {α : Type} (l : List (Nat × α)) (k : Nat) (f : α → α) (k' : Nat) :
    alook (amod l k f) k' = if k = k' then (alook l k').map f else alook l k' := by
  induction l with
  | nil => simp [amod, alook]
  | cons p t ih =>
    obtain ⟨k0, v0⟩ := p
    by_cases h0 : k0 = k
    · subst h0
      by_cases h1 : k0 = k'
      · subst h1
        simp [amod, alook]
      · simp [amod, alook, h1, ih]
    · by_cases h1 : k0 = k'
      · subst h1
        have hkk : ¬ (k = k0) := fun hh => h0 hh.symm
        simp [amod, alook, h0, hkk]
      · simp [amod, alook, h0, h1, ih]

theorem isSome_omap {α β : Type} (o : Option α) (f : α → β) :
    (o.map f).isSome = o.isSome := by
  cases o <;> rfl

/-- C8: `value_eq` is structural, kind-aware and independent of handle
identity: it returns `false` whenever the two data's types differ (at any
fuel, the type test precedes everything); two `ZeroInit`, two `Undef` or
two `Alloc` values of equal type compare equal whatever their remaining
payload (`used_by`); and two `Binary` values compare equal exactly when
their types are equal, their operators are equal and their operand pairs
are pairwise related by `value_eq` — in particular `Binary` values with
equal types but differing operators compare unequal. -/
theorem dataEqF_zero (g : DFG) (l r : EValueData) :
    dataEqF 0 g l r =
      if l.ty ≠ r.ty then some false
      else
        match kindEqCheck l.kind r.kind with
        | some b => some b
        | none => none := rfl

theorem dataEqF_succ (fuel : Nat) (g : DFG) (l r : EValueData) :
    dataEqF (fuel + 1) g l r =
      if l.ty ≠ r.ty then some false
      else
        match kindEqCheck l.kind r.kind with
        | some b => some b
        | none =>
          (l.kind.valueUses.zip r.kind.valueUses).foldl
            (fun acc p =>
              match acc with
              | none => none
              | some false => some false
              | some true =>
                match dataGet g p.1, dataGet g p.2 with
                | some dl, some dr => dataEqF fuel g dl dr
                | _, _ => none)
            (some true) := rfl

theorem dataEqF_binary (fuel : Nat) (g : DFG) (ty1 ty2 : EType) (op1 op2 : BinaryOp)
    (a b a' b' : Nat) (ub1 ub2 : Finset Nat) :
    dataEqF (fuel + 1) g ⟨ty1, .binary op1 a b, ub1⟩ ⟨ty2, .binary op2 a' b', ub2⟩ =
      if ty1 ≠ ty2 then some false
      else if op1 ≠ op2 then some false
      else
        match valueEqF fuel g a a' with
        | none => none
        | some false => some false
        | some true => valueEqF fuel g b b' := by
  rw [dataEqF_succ]
  by_cases hty : ty1 = ty2
  · subst hty
    by_cases hop : op1 = op2
    · subst hop
      simp only [ne_eq, not_true_eq_false, if_false, ite_false, kindEqCheck,
        EValueKind.valueUses, List.zip_cons_cons, List.zip_nil_right,
        List.foldl_cons, List.foldl_nil, valueEqF]
    · simp [kindEqCheck, hop]
  · simp [hty]

/-- C8: `value_eq` is structural, kind-aware and independent of handle
identity: it returns `false` whenever the two data's types differ (at any
fuel, the type test precedes everything); two `ZeroInit`, two `Undef` or
two `Alloc` values of equal type compare equal whatever their remaining
payload (`used_by`); and two `Binary` values compare equal exactly when
their types are equal, their operators are equal and their operand pairs
are pairwise related by `value_eq` — in particular `Binary` values with
equal types but differing operators compare unequal. -/
theorem value_eq_spec (g : DFG) (fuel : Nat) :
    (∀ l r : EValueData, l.ty ≠ r.ty → dataEqF fuel g l r = some false) ∧
    (∀ ty ub1 ub2, dataEqF fuel g ⟨ty, .zeroInit, ub1⟩ ⟨ty, .zeroInit, ub2⟩ = some true) ∧
    (∀ ty ub1 ub2, dataEqF fuel g ⟨ty, .undef, ub1⟩ ⟨ty, .undef, ub2⟩ = some true) ∧
    (∀ ty ub1 ub2, dataEqF fuel g ⟨ty, .alloc, ub1⟩ ⟨ty, .alloc, ub2⟩ = some true) ∧
    (∀ ty1 ty2 op1 op2 a b a' b' ub1 ub2,
      dataEqF (fuel + 1) g ⟨ty1, .binary op1 a b, ub1⟩ ⟨ty2, .binary op2 a' b', ub2⟩ = some true ↔
        (ty1 = ty2 ∧ op1 = op2 ∧
          valueEqF fuel g a a' = some true ∧ valueEqF fuel g b b' = some true)) ∧
    (∀ ty op1 op2 a b a' b' ub1 ub2, op1 ≠ op2 →
      dataEqF fuel g ⟨ty, .binary op1 a b, ub1⟩ ⟨ty, .binary op2 a' b', ub2⟩ = some false) := by
  refine ⟨?_, ?_, ?_, ?_, ?_, ?_⟩
  · intro l r hty
    cases fuel <;> simp [dataEqF_zero, dataEqF_succ, hty]
  · intro ty ub1 ub2
    cases fuel <;> simp [dataEqF_zero, dataEqF_succ, kindEqCheck]
  · intro ty ub1 ub2
    cases fuel <;> simp [dataEqF_zero, dataEqF_succ, kindEqCheck]
  · intro ty ub1 ub2
    cases fuel <;> simp [dataEqF_zero, dataEqF_succ, kindEqCheck]
  · intro ty1 ty2 op1 op2 a b a' b' ub1 ub2
    rw [dataEqF_binary]
    by_cases hty : ty1 = ty2
    · subst hty
      by_cases hop : op1 = op2
      · subst hop
        simp only [ne_eq, not_true_eq_false, if_false, ite_false, true_and]
        rcases hva : valueEqF fuel g a a' with _ | bb
        · simp
        · cases bb <;> simp
      · simp [hop]
    · simp [hty]
  · intro ty op1 op2 a b a' b' ub1 ub2 hop
    cases fuel <;> simp [dataEqF_zero, dataEqF_succ, kindEqCheck, hop]

theorem value_eq_spec_witness :
    dataEqF 0 exG3 ⟨.i32, .integer 5, ∅⟩ ⟨.unit, .integer 5, ∅⟩ = some false ∧
    dataEqF 0 exG3 ⟨.i32, .zeroInit, ∅⟩ ⟨.i32, .zeroInit, {3}⟩ = some true ∧
    dataEqF 0 exG3 ⟨.i32, .binary .add 0 0, ∅⟩ ⟨.i32, .binary .sub 0 0, ∅⟩ = some false := by
  refine ⟨(value_eq_spec exG3 0).1 _ _ (by decide), ?_, ?_⟩
  · exact (value_eq_spec exG3 0).2.1 EType.i32 ∅ {3}
  · exact (value_eq_spec exG3 0).2.2.2.2.2 EType.i32 .add .sub 0 0 0 0 ∅ ∅ (by decide)

end Arena

namespace Arena

theorem dataGet_of_chars {g g' : DFG} {L : List Nat} {f : EValueData → EValueData}
    (hg : ∀ x, alook g'.globals x = (alook g.globals x).map (fun d => if x ∈ L then f d else d))
    (hv : ∀ x, alook g'.values x = (alook g.values x).map (fun d => if x ∈ L then f d else d)) :
    ∀ x, dataGet g' x = (dataGet g x).map (fun d => if x ∈ L then f d else d) := by
  intro x
  unfold dataGet
  rw [hg x, hv x]
  rcases alook g.globals x with _ | d <;> simp

/-- Effect of the `for v in L { data_mut!(self, v) ... }` loop: if every
handle in `L` exists and the global/local key spaces are disjoint, the
loop succeeds and applies `f` (idempotent) exactly to the entries with
keys in `L`, leaving the basic-block table alone. -/
theorem modDataAll_spec (f : EValueData → EValueData) (hf : ∀ d, f (f d) = f d) :
    ∀ (L : List Nat) (g : DFG),
      (∀ k, (alook g.globals k).isSome → alook g.values k = none) →
      (∀ u ∈ L, (dataGet g u).isSome) →
      ∃ g', modDataAll f g L = .ok g' ∧
        (∀ x, alook g'.globals x = (alook g.globals x).map (fun d => if x ∈ L then f d else d)) ∧
        (∀ x, alook g'.values x = (alook g.values x).map (fun d => if x ∈ L then f d else d)) ∧
        g'.bbs = g.bbs := by
  intro L
  induction L with
  | nil =>
    intro g _ _
    refine ⟨g, rfl, ?_, ?_, rfl⟩ <;> intro x <;> simp
  | cons v t ih =>
    intro g hdisj hpres
    have hv := hpres v (List.mem_cons_self v t)
    rcases hgl : alook g.globals v with _ | d
    · -- the handle lives in the local table
      have hval : ∃ d, alook g.values v = some d := by
        unfold dataGet at hv
        rw [hgl] at hv
        rcases hvl : alook g.values v with _ | d
        · rw [hvl] at hv; simp at hv
        · exact ⟨d, rfl⟩
      obtain ⟨d, hvl⟩ := hval
      have hstep : modData g v f = .ok { g with values := amod g.values v f } := by
        rw [modData, hgl, hvl]
      have hg1g : ∀ x, alook ({ g with values := amod g.values v f } : DFG).globals x
          = alook g.globals x := fun x => rfl
      have hg1v : ∀ x, alook ({ g with values := amod g.values v f } : DFG).values x
          = if v = x then (alook g.values x).map f else alook g.values x := by
        intro x
        exact alook_amod g.values v f x
      have hdisj1 : ∀ k, (alook ({ g with values := amod g.values v f } : DFG).globals k).isSome →
          alook ({ g with values := amod g.values v f } : DFG).values k = none := by
        intro k hk
        rw [hg1v]
        rw [hg1g] at hk
        rw [hdisj k hk]
        by_cases hvk : v = k <;> simp [hvk]
      have hpres1 : ∀ u ∈ t, (dataGet { g with values := amod g.values v f } u).isSome := by
        intro u hu
        have hu2 := hpres u (List.mem_cons_of_mem v hu)
        unfold dataGet at hu2 ⊢
        rw [hg1g, hg1v]
        rcases hg : alook g.globals u with _ | dd
        · rw [hg] at hu2
          by_cases hvu : v = u <;> simp [hvu, isSome_omap] <;> exact hu2
        · rw [hg] at hu2
          simp
      obtain ⟨g', hrun, hgl', hvl', hbb'⟩ := ih _ hdisj1 hpres1
      refine ⟨g', ?_, ?_, ?_, by rw [hbb']⟩
      · rw [modDataAll, hstep]
        exact hrun
      · intro x
        rw [hgl' x, hg1g]
        by_cases hxv : x = v
        · subst hxv
          rw [hgl]
          simp
        · rcases alook g.globals x with _ | dd
          · simp
          · simp [List.mem_cons, hxv]
      · intro x
        rw [hvl' x, hg1v]
        by_cases hxv : x = v
        · subst hxv
          simp only [if_pos rfl]
          rcases alook g.values x with _ | dd
          · simp
          · by_cases hxt : x ∈ t <;> simp [hxt, hf]
        · have hvx : ¬ (v = x) := fun hh => hxv hh.symm
          rw [if_neg hvx]
          rcases alook g.values x with _ | dd
          · simp
          · simp [List.mem_cons, hxv]
    · -- the handle lives in the global table
      have hstep : modData g v f = .ok { g with globals := amod g.globals v f } := by
        rw [modData, hgl]
      have hg1g : ∀ x, alook ({ g with globals := amod g.globals v f } : DFG).globals x
          = if v = x then (alook g.globals x).map f else alook g.globals x := by
        intro x
        exact alook_amod g.globals v f x
      have hg1v : ∀ x, alook ({ g with globals := amod g.globals v f } : DFG).values x
          = alook g.values x := fun x => rfl
      have hdisj1 : ∀ k, (alook ({ g with globals := amod g.globals v f } : DFG).globals k).isSome →
          alook ({ g with globals := amod g.globals v f } : DFG).values k = none := by
        intro k hk
        rw [hg1v]
        rw [hg1g] at hk
        by_cases hvk : v = k
        · subst hvk
          rw [if_pos rfl, isSome_omap] at hk
          exact hdisj v hk
        · rw [if_neg hvk] at hk
          exact hdisj k hk
      have hpres1 : ∀ u ∈ t, (dataGet { g with globals := amod g.globals v f } u).isSome := by
        intro u hu
        have hu2 := hpres u (List.mem_cons_of_mem v hu)
        unfold dataGet at hu2 ⊢
        rw [hg1g, hg1v]
        by_cases hvu : v = u
        · subst hvu
          rw [hgl]
          simp
        · rw [if_neg hvu]
          exact hu2
      obtain ⟨g', hrun, hgl', hvl', hbb'⟩ := ih _ hdisj1 hpres1
      refine ⟨g', ?_, ?_, ?_, by rw [hbb']⟩
      · rw [modDataAll, hstep]
        exact hrun
      · intro x
        rw [hgl' x, hg1g]
        by_cases hxv : x = v
        · subst hxv
          rw [if_pos rfl, hgl]
          by_cases hxt : x ∈ t <;> simp [hxt, hf]
        · have hvx : ¬ (v = x) := fun hh => hxv hh.symm
          rw [if_neg hvx]
          rcases alook g.globals x with _ | dd
          · simp
          · simp [List.mem_cons, hxv]
      · intro x
        rw [hvl' x, hg1v]
        by_cases hxv : x = v
        · subst hxv
          rw [hdisj x (by rw [hgl]; rfl)]
          simp
        · rcases alook g.values x with _ | dd
          · simp
          · simp [List.mem_cons, hxv]

/-- Effect of the `for bb in L { self.bb_mut(bb) ... }` loop. -/
theorem modBBAll_spec (f : EBBData → EBBData) (hf : ∀ d, f (f d) = f d) :
    ∀ (L : List Nat) (g : DFG),
      (∀ b ∈ L, (alook g.bbs b).isSome) →
      ∃ g', modBBAll f g L = .ok g' ∧
        (∀ x, alook g'.bbs x = (alook g.bbs x).map (fun d => if x ∈ L then f d else d)) ∧
        g'.globals = g.globals ∧ g'.values = g.values := by
  intro L
  induction L with
  | nil =>
    intro g _
    refine ⟨g, rfl, ?_, rfl, rfl⟩
    intro x
    simp
  | cons v t ih =>
    intro g hpres
    have hv := hpres v (List.mem_cons_self v t)
    rcases hgb : alook g.bbs v with _ | d
    · rw [hgb] at hv
      simp at hv
    · have hstep : modBB g v f = .ok { g with bbs := amod g.bbs v f } := by
        rw [modBB, hgb]
      have hg1b : ∀ x, alook ({ g with bbs := amod g.bbs v f } : DFG).bbs x
          = if v = x then (alook g.bbs x).map f else alook g.bbs x := by
        intro x
        exact alook_amod g.bbs v f x
      have hpres1 : ∀ b ∈ t, (alook ({ g with bbs := amod g.bbs v f } : DFG).bbs b).isSome := by
        intro b hb
        have hb2 := hpres b (List.mem_cons_of_mem v hb)
        rw [hg1b]
        by_cases hvb : v = b <;> simp [hvb, isSome_omap] <;> simpa using hb2
      obtain ⟨g', hrun, hbb', hgl', hvl'⟩ := ih _ hpres1
      refine ⟨g', ?_, ?_, hgl', hvl'⟩
      · rw [modBBAll, hstep]
        exact hrun
      · intro x
        rw [hbb' x, hg1b]
        by_cases hxv : x = v
        · subst hxv
          rw [if_pos rfl, hgb]
          by_cases hxt : x ∈ t <;> simp [hxt, hf]
        · have hvx : ¬ (v = x) := fun hh => hxv hh.symm
          rw [if_neg hvx]
          rcases alook g.bbs x with _ | dd
          · simp
          · simp [List.mem_cons, hxv]

end Arena

namespace Arena

/-- C7 (amended): for a value handle `v` in the local table of `g`: if
`v`'s `used_by` set is non-empty, `remove_value` aborts by assertion,
refusing to complete the removal — but at the moment the assertion fires
`v` has already been removed from the value map (so the graph is not left
unchanged: `v` is no longer present; nothing else has been touched yet).
If `used_by` is empty, it removes `v`, deletes `v` from the `used_by` set
of every value and basic block that `v`'s data uses, and returns `v`'s
old data.  It panics, leaving the graph unchanged, if `v` does not exist
in the local table. -/
theorem remove_value_spec (g : DFG) (v : Nat) :
    (alook g.values v = none → removeValue g v = .error g) ∧
    (∀ d, alook g.values v = some d → d.usedBy ≠ ∅ →
      removeValue g v = .error { g with values := aerase g.values v } ∧
      alook (aerase g.values v) v = none) ∧
    (∀ d, alook g.values v = some d → d.usedBy = ∅ →
      (∀ k, (alook g.globals k).isSome → alook g.values k = none) →
      (∀ u ∈ d.kind.valueUses, u ≠ v ∧ (dataGet g u).isSome) →
      (∀ b ∈ d.kind.bbUses, (alook g.bbs b).isSome) →
      ∃ g', removeValue g v = .ok (g', d) ∧
        alook g'.values v = none ∧
        (∀ u du, dataGet g u = some du → u ≠ v →
          dataGet g' u = some (if u ∈ d.kind.valueUses then remUB v du else du)) ∧
        (∀ b db, alook g.bbs b = some db →
          alook g'.bbs b = some (if b ∈ d.kind.bbUses then remUBbb v db else db))) := by
  refine ⟨?_, ?_, ?_⟩
  · intro h
    rw [removeValue, h]
  · intro d hd hne
    refine ⟨?_, ?_⟩
    · rw [removeValue, hd]
      simp [hne]
    · rw [alook_aerase]
      simp
  · intro d hd hemp hdisj huse hbb
    have hdisj0 : ∀ k, (alook ({ g with values := aerase g.values v } : DFG).globals k).isSome →
        alook ({ g with values := aerase g.values v } : DFG).values k = none := by
      intro k hk
      have := hdisj k hk
      show alook (aerase g.values v) k = none
      rw [alook_aerase, this]
      simp
    have hpres0 : ∀ u ∈ d.kind.valueUses,
        (dataGet { g with values := aerase g.values v } u).isSome := by
      intro u hu
      obtain ⟨hneu, hsome⟩ := huse u hu
      unfold dataGet at hsome ⊢
      rcases hg : alook g.globals u with _ | dd
      · rw [hg] at hsome
        show (alook (aerase g.values v) u).isSome
        rw [alook_aerase]
        have hvu : ¬ (v = u) := fun hh => hneu hh.symm
        rw [if_neg hvu]
        exact hsome
      · rfl
    have hfrem : ∀ dd : EValueData, remUB v (remUB v dd) = remUB v dd := by
      intro dd
      simp [remUB, Finset.erase_idem]
    obtain ⟨g1, hrun1, hgl1, hvl1, hbb1⟩ :=
      modDataAll_spec (remUB v) hfrem d.kind.valueUses
        { g with values := aerase g.values v } hdisj0 hpres0
    have hpresb : ∀ b ∈ d.kind.bbUses, (alook g1.bbs b).isSome := by
      intro b hb
      rw [hbb1]
      exact hbb b hb
    have hfremb : ∀ dd : EBBData, remUBbb v (remUBbb v dd) = remUBbb v dd := by
      intro dd
      simp [remUBbb, Finset.erase_idem]
    obtain ⟨g2, hrun2, hbb2, hgl2, hvl2⟩ :=
      modBBAll_spec (remUBbb v) hfremb d.kind.bbUses g1 hpresb
    refine ⟨g2, ?_, ?_, ?_, ?_⟩
    · rw [removeValue, hd]
      show (if d.usedBy = ∅ then
          match modDataAll (remUB v) { g with values := aerase g.values v } d.kind.valueUses with
          | .error g1 => Except.error g1
          | .ok g1 =>
            match modBBAll (remUBbb v) g1 d.kind.bbUses with
            | .error g2 => Except.error g2
            | .ok g2 => Except.ok (g2, d)
        else Except.error { g with values := aerase g.values v }) = Except.ok (g2, d)
      rw [if_pos hemp, hrun1]
      show (match modBBAll (remUBbb v) g1 d.kind.bbUses with
        | .error g2 => Except.error g2
        | .ok g2 => Except.ok (g2, d)) = Except.ok (g2, d)
      rw [hrun2]
    · rw [hvl2, hvl1 v]
      show ((alook (aerase g.values v) v).map _) = none
      rw [alook_aerase]
      simp
    · intro u du hdu hneu
      have hchar := dataGet_of_chars hgl1 hvl1
      have hg2u : dataGet g2 u = dataGet g1 u := by
        unfold dataGet
        rw [hgl2, hvl2]
      have hg0u : dataGet { g with values := aerase g.values v } u = dataGet g u := by
        unfold dataGet
        rcases hg : alook g.globals u with _ | dd
        · show alook (aerase g.values v) u = alook g.values u
          rw [alook_aerase]
          have hvu : ¬ (v = u) := fun hh => hneu hh.symm
          rw [if_neg hvu]
        · rfl
      rw [hg2u, hchar u, hg0u, hdu]
      rfl
    · intro b db hdb
      rw [hbb2 b, hbb1]
      show ((alook g.bbs b).map _) = _
      rw [hdb]
      rfl

end Arena

namespace Arena

/-- C7 counterexample: in `exG` the value `0` is still used by `1`, so
`remove_value 0` fires the `used_by` assertion — but the `HashMap::remove`
has already happened: the graph at the abort is `exGRemoved`, in which
`0` is no longer present.  The claim's "leaving the graph unchanged
(v remains present)" is false. -/
theorem remove_value_not_unchanged :
    removeValue exG 0 = Except.error exGRemoved ∧
    alook exGRemoved.values 0 = none ∧
    exGRemoved ≠ exG := by
  refine ⟨rfl, rfl, by decide⟩

theorem remove_value_spec_witness :
    ∃ g', removeValue exG 1 = Except.ok (g', (⟨.i32, .binary .add 0 0, ∅⟩ : EValueData)) ∧
      alook g'.values 1 = none := by
  obtain ⟨g', h1, h2, _⟩ :=
    (remove_value_spec exG 1).2.2 ⟨.i32, .binary .add 0 0, ∅⟩ rfl rfl
      (by intro k hk; simp [alook, exG] at hk)
      (by decide) (by decide)
  exact ⟨g', h1, h2⟩

theorem insUB_kind (w : Nat) (d : EValueData) : (insUB w d).kind = d.kind := rfl

theorem remUB_kind (w : Nat) (d : EValueData) : (remUB w d).kind = d.kind := rfl

theorem insUB_usedBy (w : Nat) (d : EValueData) : (insUB w d).usedBy = insert w d.usedBy := rfl

theorem remUB_usedBy (w : Nat) (d : EValueData) : (remUB w d).usedBy = d.usedBy.erase w := rfl

theorem insUBbb_usedBy (w : Nat) (d : EBBData) : (insUBbb w d).usedBy = insert w d.usedBy := rfl

theorem remUBbb_usedBy (w : Nat) (d : EBBData) : (remUBbb w d).usedBy = d.usedBy.erase w := rfl

/-- Disjointness of the two key spaces survives a key-preserving modify
pass. -/
theorem disj_of_chars {g g' : DFG} {L : List Nat} {f : EValueData → EValueData}
    (hgl : ∀ x, alook g'.globals x = (alook g.globals x).map (fun d => if x ∈ L then f d else d))
    (hvl : ∀ x, alook g'.values x = (alook g.values x).map (fun d => if x ∈ L then f d else d))
    (hd : ∀ k, (alook g.globals k).isSome → alook g.values k = none) :
    ∀ k, (alook g'.globals k).isSome → alook g'.values k = none := by
  intro k hk
  rw [hgl k, isSome_omap] at hk
  rw [hvl k, hd k hk]
  rfl

/-- Presence of a handle survives a key-preserving modify pass. -/
theorem pres_of_chars {g g' : DFG} {L : List Nat} {f : EValueData → EValueData}
    (hgl : ∀ x, alook g'.globals x = (alook g.globals x).map (fun d => if x ∈ L then f d else d))
    (hvl : ∀ x, alook g'.values x = (alook g.values x).map (fun d => if x ∈ L then f d else d)) :
    ∀ u, (dataGet g u).isSome → (dataGet g' u).isSome := by
  intro u hu
  unfold dataGet at hu ⊢
  rw [hgl u, hvl u]
  rcases hg : alook g.globals u with _ | dd
  · rw [hg] at hu
    show ((alook g.values u).map _).isSome = true
    rw [isSome_omap]
    exact hu
  · rfl

/-- `new_value` (with a fresh handle, freshly constructed data — empty
`used_by` — and existing operands) succeeds and preserves the use-record
invariant. -/
theorem newValue_preserves (g : DFG) (hInv : Inv g) (nv : Nat) (data : EValueData)
    (hfresh : dataGet g nv = none) (hub : data.usedBy = ∅)
    (hpres : ∀ u ∈ data.kind.valueUses, (dataGet g u).isSome)
    (hpresb : ∀ b ∈ data.kind.bbUses, (alook g.bbs b).isSome) :
    ∃ g', newValue g nv data = .ok g' ∧ Inv g' := by
  obtain ⟨hdisj, hcl, hvc, hbc⟩ := hInv
  have hfreshg : alook g.globals nv = none := by
    unfold dataGet at hfresh
    rcases hh : alook g.globals nv with _ | dd
    · rfl
    · rw [hh] at hfresh
      exact Option.noConfusion hfresh
  have hfreshv : alook g.values nv = none := by
    unfold dataGet at hfresh
    rw [hfreshg] at hfresh
    exact hfresh
  have hfins : ∀ dd : EValueData, insUB nv (insUB nv dd) = insUB nv dd := by
    intro dd
    simp [insUB, Finset.insert_idem]
  obtain ⟨g1, hrun1, hgl1, hvl1, hbb1⟩ :=
    modDataAll_spec (insUB nv) hfins data.kind.valueUses g hdisj hpres
  have hpresb1 : ∀ b ∈ data.kind.bbUses, (alook g1.bbs b).isSome := by
    intro b hb
    rw [hbb1]
    exact hpresb b hb
  have hfinsb : ∀ dd : EBBData, insUBbb nv (insUBbb nv dd) = insUBbb nv dd := by
    intro dd
    simp [insUBbb, Finset.insert_idem]
  obtain ⟨g2, hrun2, hbb2, hgl2, hvl2⟩ :=
    modBBAll_spec (insUBbb nv) hfinsb data.kind.bbUses g1 hpresb1
  refine ⟨{ g2 with values := ains g2.values nv data }, ?_, ?_⟩
  · rw [newValue, hrun1]
    show (match modBBAll (insUBbb nv) g1 data.kind.bbUses with
      | .error g2 => Except.error g2
      | .ok g2 => Except.ok { g2 with values := ains g2.values nv data })
      = Except.ok { g2 with values := ains g2.values nv data }
    rw [hrun2]
  · -- characterizations of the final graph
    have hGg : ∀ x, alook ({ g2 with values := ains g2.values nv data } : DFG).globals x
        = (alook g.globals x).map (fun d => if x ∈ data.kind.valueUses then insUB nv d else d) := by
      intro x
      show alook g2.globals x = _
      rw [hgl2]
      exact hgl1 x
    have hGv : ∀ x, alook ({ g2 with values := ains g2.values nv data } : DFG).values x
        = if nv = x then some data
          else (alook g.values x).map (fun d => if x ∈ data.kind.valueUses then insUB nv d else d) := by
      intro x
      show alook (ains g2.values nv data) x = _
      rw [alook_ains]
      by_cases hx : nv = x
      · rw [if_pos hx, if_pos hx]
      · rw [if_neg hx, if_neg hx, hvl2]
        exact hvl1 x
    have hGb : ∀ x, alook ({ g2 with values := ains g2.values nv data } : DFG).bbs x
        = (alook g.bbs x).map (fun d => if x ∈ data.kind.bbUses then insUBbb nv d else d) := by
      intro x
      show alook g2.bbs x = _
      rw [hbb2 x, hbb1]
    have hnvL : nv ∉ data.kind.valueUses := by
      intro hmem
      have := hpres nv hmem
      rw [hfresh] at this
      simp at this
    have hnvUB : ∀ u du, dataGet g u = some du → nv ∉ du.usedBy := by
      intro u du h hmem
      obtain ⟨dw, hdw, _⟩ := (hvc u du h nv).mp hmem
      rw [hfreshv] at hdw
      exact Option.noConfusion hdw
    have hnvUse : ∀ w dw, alook g.values w = some dw → nv ∉ dw.kind.valueUses := by
      intro w dw h hmem
      have := (hcl w dw h).1 nv hmem
      rw [hfresh] at this
      simp at this
    have hnvUBb : ∀ b db, alook g.bbs b = some db → nv ∉ db.usedBy := by
      intro b db h hmem
      obtain ⟨dw, hdw, _⟩ := (hbc b db h nv).mp hmem
      rw [hfreshv] at hdw
      exact Option.noConfusion hdw
    have hkp : ∀ (x : Nat) (dd : EValueData),
        ((if x ∈ data.kind.valueUses then insUB nv dd else dd)).kind = dd.kind := by
      intro x dd
      by_cases hx : x ∈ data.kind.valueUses <;> simp [hx, insUB]
    have hDGnv : dataGet { g2 with values := ains g2.values nv data } nv = some data := by
      unfold dataGet
      rw [hGg nv, hfreshg]
      show alook ({ g2 with values := ains g2.values nv data } : DFG).values nv = some data
      rw [hGv nv, if_pos rfl]
    have hDG : ∀ u, nv ≠ u →
        dataGet { g2 with values := ains g2.values nv data } u
          = (dataGet g u).map (fun d => if u ∈ data.kind.valueUses then insUB nv d else d) := by
      intro u hnu
      unfold dataGet
      rw [hGg u]
      rcases hx : alook g.globals u with _ | dd
      · show alook ({ g2 with values := ains g2.values nv data } : DFG).values u = _
        rw [hGv u, if_neg hnu]
      · rfl
    have hPres : ∀ u, (dataGet g u).isSome →
        (dataGet { g2 with values := ains g2.values nv data } u).isSome := by
      intro u hu
      by_cases hnu : nv = u
      · rw [← hnu, hDGnv]
        rfl
      · rw [hDG u hnu, isSome_omap]
        exact hu
    refine ⟨?_, ?_, ?_, ?_⟩
    · -- Disj
      intro k hk
      by_cases hkn : nv = k
      · rw [hGg k, ← hkn, hfreshg] at hk
        simp at hk
      · rw [hGg k, isSome_omap] at hk
        rw [hGv k, if_neg hkn, hdisj k hk]
        rfl
    · -- Closed
      intro w dw hw
      rw [hGv w] at hw
      by_cases hwn : nv = w
      · rw [if_pos hwn] at hw
        injection hw with hw
        subst hw
        exact ⟨fun u hu => hPres u (hpres u hu),
          fun b hb => by rw [hGb b, isSome_omap]; exact hpresb b hb⟩
      · rw [if_neg hwn] at hw
        rcases hbase : alook g.values w with _ | dw0
        · rw [hbase] at hw
          exact Option.noConfusion hw
        · rw [hbase] at hw
          simp only [Option.map] at hw
          injection hw with hw
          obtain ⟨hclv, hclb⟩ := hcl w dw0 hbase
          constructor
          · intro u hu
            rw [← hw, hkp w dw0] at hu
            exact hPres u (hclv u hu)
          · intro b hb
            rw [← hw, hkp w dw0] at hb
            rw [hGb b, isSome_omap]
            exact hclb b hb
    · -- ValCons
      intro u du hdu w
      by_cases hnu : nv = u
      · subst hnu
        rw [hDGnv] at hdu
        injection hdu with hdu
        subst hdu
        constructor
        · intro h
          rw [hub] at h
          simp at h
        · rintro ⟨dw, hdw, hmem⟩
          rw [hGv w] at hdw
          by_cases hwn : nv = w
          · rw [if_pos hwn] at hdw
            injection hdw with hdw
            subst hdw
            exact absurd hmem hnvL
          · rw [if_neg hwn] at hdw
            rcases hbase : alook g.values w with _ | dw0
            · rw [hbase] at hdw
              exact Option.noConfusion hdw
            · rw [hbase] at hdw
              simp only [Option.map] at hdw
              injection hdw with hdw
              rw [← hdw, hkp w dw0] at hmem
              exact absurd hmem (hnvUse w dw0 hbase)
      · rw [hDG u hnu] at hdu
        rcases hbase : dataGet g u with _ | du0
        · rw [hbase] at hdu
          exact Option.noConfusion hdu
        · rw [hbase] at hdu
          simp only [Option.map] at hdu
          injection hdu with hdu
          by_cases hwn : nv = w
        -- w = nv: membership tracks u ∈ valueUses of the new data
          · subst hwn
            constructor
            · intro h
              rw [← hdu] at h
              by_cases huL : u ∈ data.kind.valueUses
              · exact ⟨data, by rw [hGv nv, if_pos rfl], huL⟩
              · rw [if_neg huL] at h
                exact absurd h (hnvUB u du0 hbase)
            · rintro ⟨dw, hdw, hmem⟩
              rw [hGv nv, if_pos rfl] at hdw
              injection hdw with hdw
              subst hdw
              rw [← hdu]
              rw [if_pos hmem, insUB_usedBy]
              exact Finset.mem_insert_self nv _
          · have hLHS : w ∈ du.usedBy ↔ w ∈ du0.usedBy := by
              rw [← hdu]
              by_cases huL : u ∈ data.kind.valueUses
              · rw [if_pos huL, insUB_usedBy]
                rw [Finset.mem_insert]
                constructor
                · rintro (h | h)
                  · exact absurd h.symm hwn
                  · exact h
                · intro h
                  exact Or.inr h
              · rw [if_neg huL]
            have hRHS : (∃ dw, alook ({ g2 with values := ains g2.values nv data } : DFG).values w
                  = some dw ∧ u ∈ dw.kind.valueUses) ↔
                (∃ dw, alook g.values w = some dw ∧ u ∈ dw.kind.valueUses) := by
              constructor
              · rintro ⟨dw, hdw, hmem⟩
                rw [hGv w, if_neg hwn] at hdw
                rcases hbase2 : alook g.values w with _ | dw0'
                · rw [hbase2] at hdw
                  exact Option.noConfusion hdw
                · rw [hbase2] at hdw
                  simp only [Option.map] at hdw
                  injection hdw with hdw
                  rw [← hdw, hkp w dw0'] at hmem
                  exact ⟨dw0', rfl, hmem⟩
              · rintro ⟨dw0', hdw0, hmem⟩
                refine ⟨if w ∈ data.kind.valueUses then insUB nv dw0' else dw0', ?_, ?_⟩
                · rw [hGv w, if_neg hwn, hdw0]
                  rfl
                · rw [hkp w dw0']
                  exact hmem
            rw [hLHS, hRHS]
            exact hvc u du0 hbase w
    · -- BBCons
      intro b db hdb w
      rw [hGb b] at hdb
      rcases hbase : alook g.bbs b with _ | db0
      · rw [hbase] at hdb
        exact Option.noConfusion hdb
      · rw [hbase] at hdb
        simp only [Option.map] at hdb
        injection hdb with hdb
        by_cases hwn : nv = w
        · subst hwn
          constructor
          · intro h
            rw [← hdb] at h
            by_cases hbB : b ∈ data.kind.bbUses
            · exact ⟨data, by rw [hGv nv, if_pos rfl], hbB⟩
            · rw [if_neg hbB] at h
              exact absurd h (hnvUBb b db0 hbase)
          · rintro ⟨dw, hdw, hmem⟩
            rw [hGv nv, if_pos rfl] at hdw
            injection hdw with hdw
            subst hdw
            rw [← hdb]
            rw [if_pos hmem, insUBbb_usedBy]
            exact Finset.mem_insert_self nv _
        · have hLHS : w ∈ db.usedBy ↔ w ∈ db0.usedBy := by
            rw [← hdb]
            by_cases hbB : b ∈ data.kind.bbUses
            · rw [if_pos hbB, insUBbb_usedBy, Finset.mem_insert]
              constructor
              · rintro (h | h)
                · exact absurd h.symm hwn
                · exact h
              · intro h
                exact Or.inr h
            · rw [if_neg hbB]
          have hRHS : (∃ dw, alook ({ g2 with values := ains g2.values nv data } : DFG).values w
                = some dw ∧ b ∈ dw.kind.bbUses) ↔
              (∃ dw, alook g.values w = some dw ∧ b ∈ dw.kind.bbUses) := by
            have hkb : ∀ (x : Nat) (dd : EValueData),
                ((if x ∈ data.kind.valueUses then insUB nv dd else dd)).kind = dd.kind := hkp
            constructor
            · rintro ⟨dw, hdw, hmem⟩
              rw [hGv w, if_neg hwn] at hdw
              rcases hbase2 : alook g.values w with _ | dw0'
              · rw [hbase2] at hdw
                exact Option.noConfusion hdw
              · rw [hbase2] at hdw
                simp only [Option.map] at hdw
                injection hdw with hdw
                rw [← hdw, hkb w dw0'] at hmem
                exact ⟨dw0', rfl, hmem⟩
            · rintro ⟨dw0', hdw0, hmem⟩
              refine ⟨if w ∈ data.kind.valueUses then insUB nv dw0' else dw0', ?_, ?_⟩
              · rw [hGv w, if_neg hwn, hdw0]
                rfl
              · rw [hkp w dw0']
                exact hmem
          rw [hLHS, hRHS]
          exact hbc b db0 hbase w

end Arena

namespace Arena

theorem mem_comp_usedBy_ne {v w : Nat} (hwv : ¬ w = v) (c1 c2 : Prop) [Decidable c1] [Decidable c2]
    (dd : EValueData) :
    (w ∈ (if c1 then insUB v (if c2 then remUB v dd else dd)
        else (if c2 then remUB v dd else dd)).usedBy ↔ w ∈ dd.usedBy) := by
  by_cases h1 : c1 <;> by_cases h2 : c2 <;>
    simp [h1, h2, insUB, remUB, Finset.mem_insert, Finset.mem_erase, hwv]

theorem mem_comp_usedBy_self {v : Nat} (c1 c2 : Prop) [Decidable c1] [Decidable c2]
    (dd : EValueData) :
    (v ∈ (if c1 then insUB v (if c2 then remUB v dd else dd)
        else (if c2 then remUB v dd else dd)).usedBy ↔ (c1 ∨ (¬ c2 ∧ v ∈ dd.usedBy))) := by
  by_cases h1 : c1 <;> by_cases h2 : c2 <;>
    simp [h1, h2, insUB, remUB, Finset.mem_insert, Finset.not_mem_erase]

theorem kind_comp {v : Nat} (c1 c2 : Prop) [Decidable c1] [Decidable c2] (dd : EValueData) :
    (if c1 then insUB v (if c2 then remUB v dd else dd)
      else (if c2 then remUB v dd else dd)).kind = dd.kind := by
  by_cases h1 : c1 <;> by_cases h2 : c2 <;> simp [h1, h2, insUB, remUB]

theorem mem_comp_usedBybb_ne {v w : Nat} (hwv : ¬ w = v) (c1 c2 : Prop) [Decidable c1]
    [Decidable c2] (dd : EBBData) :
    (w ∈ (if c1 then insUBbb v (if c2 then remUBbb v dd else dd)
        else (if c2 then remUBbb v dd else dd)).usedBy ↔ w ∈ dd.usedBy) := by
  by_cases h1 : c1 <;> by_cases h2 : c2 <;>
    simp [h1, h2, insUBbb, remUBbb, Finset.mem_insert, Finset.mem_erase, hwv]

theorem mem_comp_usedBybb_self {v : Nat} (c1 c2 : Prop) [Decidable c1] [Decidable c2]
    (dd : EBBData) :
    (v ∈ (if c1 then insUBbb v (if c2 then remUBbb v dd else dd)
        else (if c2 then remUBbb v dd else dd)).usedBy ↔ (c1 ∨ (¬ c2 ∧ v ∈ dd.usedBy))) := by
  by_cases h1 : c1 <;> by_cases h2 : c2 <;>
    simp [h1, h2, insUBbb, remUBbb, Finset.mem_insert, Finset.not_mem_erase]

/-- `replace_value_with` preserves the use-record invariant provided the
supplied data's `used_by` set equals the replaced value's current one
(the transfer the handle-reuse requires), the old data does not use `v`
itself, and the new data's uses exist and are not `v`. -/
theorem replaceValueWith_preserves (g : DFG) (hInv : Inv g) (v : Nat) (old data : EValueData)
    (hold : alook g.values v = some old)
    (htransfer : data.usedBy = old.usedBy)
    (hvnotold : v ∉ old.kind.valueUses)
    (hnew : ∀ u ∈ data.kind.valueUses, u ≠ v ∧ (dataGet g u).isSome)
    (hnewb : ∀ b ∈ data.kind.bbUses, (alook g.bbs b).isSome) :
    ∃ g', replaceValueWith g v data = .ok (g', old) ∧ Inv g' := by
  obtain ⟨hdisj, hcl, hvc, hbc⟩ := hInv
  have hglv : alook g.globals v = none := by
    rcases hh : alook g.globals v with _ | dd
    · rfl
    · have := hdisj v (by rw [hh]; rfl)
      rw [hold] at this
      exact Option.noConfusion this
  have hDGgv : dataGet g v = some old := by
    unfold dataGet
    rw [hglv]
    exact hold
  have hvNnew : v ∉ data.kind.valueUses := fun h => (hnew v h).1 rfl
  -- step 0: the local entry of v is removed
  have hG0g : ∀ x, alook ({ g with values := aerase g.values v } : DFG).globals x
      = alook g.globals x := fun x => rfl
  have hG0v : ∀ x, alook ({ g with values := aerase g.values v } : DFG).values x
      = if v = x then none else alook g.values x := by
    intro x
    exact alook_aerase g.values v x
  have hdisj0 : ∀ k, (alook ({ g with values := aerase g.values v } : DFG).globals k).isSome →
      alook ({ g with values := aerase g.values v } : DFG).values k = none := by
    intro k hk
    rw [hG0v]
    rw [hG0g] at hk
    rw [hdisj k hk]
    simp
  have hDG0 : ∀ u, ¬ v = u → dataGet { g with values := aerase g.values v } u = dataGet g u := by
    intro u hvu
    unfold dataGet
    rcases hx : alook g.globals u with _ | dd
    · show alook (aerase g.values v) u = alook g.values u
      rw [alook_aerase, if_neg hvu]
    · rfl
  have hpres0 : ∀ u ∈ old.kind.valueUses,
      (dataGet { g with values := aerase g.values v } u).isSome := by
    intro u hu
    have hvu : ¬ v = u := fun hh => hvnotold (hh ▸ hu)
    rw [hDG0 u hvu]
    exact (hcl v old hold).1 u hu
  have hfrem : ∀ dd : EValueData, remUB v (remUB v dd) = remUB v dd := by
    intro dd
    simp [remUB, Finset.erase_idem]
  obtain ⟨g1, hrun1, hgl1, hvl1, hbb1⟩ :=
    modDataAll_spec (remUB v) hfrem old.kind.valueUses
      { g with values := aerase g.values v } hdisj0 hpres0
  have hdisj1 := disj_of_chars hgl1 hvl1 hdisj0
  have hpresb1 : ∀ b ∈ old.kind.bbUses, (alook g1.bbs b).isSome := by
    intro b hb
    rw [hbb1]
    exact (hcl v old hold).2 b hb
  have hfremb : ∀ dd : EBBData, remUBbb v (remUBbb v dd) = remUBbb v dd := by
    intro dd
    simp [remUBbb, Finset.erase_idem]
  obtain ⟨g2, hrun2, hbb2, hgl2, hvl2⟩ :=
    modBBAll_spec (remUBbb v) hfremb old.kind.bbUses g1 hpresb1
  have hDG12 : ∀ u, dataGet g2 u = dataGet g1 u := by
    intro u
    unfold dataGet
    rw [hgl2, hvl2]
  have hdisj2 : ∀ k, (alook g2.globals k).isSome → alook g2.values k = none := by
    intro k
    rw [hgl2, hvl2]
    exact hdisj1 k
  have hpres2 : ∀ u ∈ data.kind.valueUses, (dataGet g2 u).isSome := by
    intro u hu
    obtain ⟨hne, hsome⟩ := hnew u hu
    rw [hDG12]
    refine pres_of_chars hgl1 hvl1 u ?_
    rw [hDG0 u (fun hh => hne hh.symm)]
    exact hsome
  have hfins : ∀ dd : EValueData, insUB v (insUB v dd) = insUB v dd := by
    intro dd
    simp [insUB, Finset.insert_idem]
  obtain ⟨g3, hrun3, hgl3, hvl3, hbb3⟩ :=
    modDataAll_spec (insUB v) hfins data.kind.valueUses g2 hdisj2 hpres2
  have hpresb3 : ∀ b ∈ data.kind.bbUses, (alook g3.bbs b).isSome := by
    intro b hb
    rw [hbb3, hbb2 b, isSome_omap, hbb1]
    exact hnewb b hb
  have hfinsb : ∀ dd : EBBData, insUBbb v (insUBbb v dd) = insUBbb v dd := by
    intro dd
    simp [insUBbb, Finset.insert_idem]
  obtain ⟨g4, hrun4, hbb4, hgl4, hvl4⟩ :=
    modBBAll_spec (insUBbb v) hfinsb data.kind.bbUses g3 hpresb3
  refine ⟨{ g4 with values := ains g4.values v data }, ?_, ?_⟩
  · rw [replaceValueWith, hold]
    show (match modDataAll (remUB v) { g with values := aerase g.values v } old.kind.valueUses with
      | .error g1 => Except.error g1
      | .ok g1 =>
        match modBBAll (remUBbb v) g1 old.kind.bbUses with
        | .error g2 => Except.error g2
        | .ok g2 =>
          match modDataAll (insUB v) g2 data.kind.valueUses with
          | .error g3 => Except.error g3
          | .ok g3 =>
            match modBBAll (insUBbb v) g3 data.kind.bbUses with
            | .error g4 => Except.error g4
            | .ok g4 => Except.ok ({ g4 with values := ains g4.values v data }, old))
      = Except.ok ({ g4 with values := ains g4.values v data }, old)
    rw [hrun1]
    show (match modBBAll (remUBbb v) g1 old.kind.bbUses with
      | .error g2 => Except.error g2
      | .ok g2 =>
        match modDataAll (insUB v) g2 data.kind.valueUses with
        | .error g3 => Except.error g3
        | .ok g3 =>
          match modBBAll (insUBbb v) g3 data.kind.bbUses with
          | .error g4 => Except.error g4
          | .ok g4 => Except.ok ({ g4 with values := ains g4.values v data }, old))
      = Except.ok ({ g4 with values := ains g4.values v data }, old)
    rw [hrun2]
    show (match modDataAll (insUB v) g2 data.kind.valueUses with
      | .error g3 => Except.error g3
      | .ok g3 =>
        match modBBAll (insUBbb v) g3 data.kind.bbUses with
        | .error g4 => Except.error g4
        | .ok g4 => Except.ok ({ g4 with values := ains g4.values v data }, old))
      = Except.ok ({ g4 with values := ains g4.values v data }, old)
    rw [hrun3]
    show (match modBBAll (insUBbb v) g3 data.kind.bbUses with
      | .error g4 => Except.error g4
      | .ok g4 => Except.ok ({ g4 with values := ains g4.values v data }, old))
      = Except.ok ({ g4 with values := ains g4.values v data }, old)
    rw [hrun4]
  · -- characterizations of the final graph relative to g
    have hGg : ∀ x, alook ({ g4 with values := ains g4.values v data } : DFG).globals x
        = ((alook g.globals x).map (fun d => if x ∈ old.kind.valueUses then remUB v d else d)).map
            (fun d => if x ∈ data.kind.valueUses then insUB v d else d) := by
      intro x
      show alook g4.globals x = _
      rw [hgl4, hgl3 x, hgl2, hgl1 x, hG0g]
    have hGv : ∀ x, alook ({ g4 with values := ains g4.values v data } : DFG).values x
        = if v = x then some data
          else ((alook g.values x).map (fun d => if x ∈ old.kind.valueUses then remUB v d else d)).map
            (fun d => if x ∈ data.kind.valueUses then insUB v d else d) := by
      intro x
      show alook (ains g4.values v data) x = _
      rw [alook_ains]
      by_cases hx : v = x
      · rw [if_pos hx, if_pos hx]
      · rw [if_neg hx, if_neg hx, hvl4, hvl3 x, hvl2, hvl1 x, hG0v x, if_neg hx]
    have hGb : ∀ x, alook ({ g4 with values := ains g4.values v data } : DFG).bbs x
        = ((alook g.bbs x).map (fun d => if x ∈ old.kind.bbUses then remUBbb v d else d)).map
            (fun d => if x ∈ data.kind.bbUses then insUBbb v d else d) := by
      intro x
      show alook g4.bbs x = _
      rw [hbb4 x, hbb3, hbb2 x, hbb1]
    have hDGf : ∀ u, ¬ v = u →
        dataGet { g4 with values := ains g4.values v data } u
          = ((dataGet g u).map (fun d => if u ∈ old.kind.valueUses then remUB v d else d)).map
              (fun d => if u ∈ data.kind.valueUses then insUB v d else d) := by
      intro u hvu
      unfold dataGet
      rw [hGg u]
      rcases hx : alook g.globals u with _ | dd
      · show alook ({ g4 with values := ains g4.values v data } : DFG).values u = _
        rw [hGv u, if_neg hvu]
      · rfl
    have hDGfv : dataGet { g4 with values := ains g4.values v data } v = some data := by
      unfold dataGet
      rw [hGg v, hglv]
      show alook ({ g4 with values := ains g4.values v data } : DFG).values v = some data
      rw [hGv v, if_pos rfl]
    have hPres : ∀ u, ¬ v = u → (dataGet g u).isSome →
        (dataGet { g4 with values := ains g4.values v data } u).isSome := by
      intro u hvu hu
      rw [hDGf u hvu, isSome_omap, isSome_omap]
      exact hu
    refine ⟨?_, ?_, ?_, ?_⟩
    · -- Disj
      intro k hk
      rw [hGg k, isSome_omap, isSome_omap] at hk
      have hkv : ¬ v = k := by
        intro hh
        rw [← hh, hglv] at hk
        simp at hk
      rw [hGv k, if_neg hkv, hdisj k hk]
      rfl
    · -- Closed
      intro w dw hw
      rw [hGv w] at hw
      by_cases hwv : v = w
      · rw [if_pos hwv] at hw
        injection hw with hw
        subst hw
        refine ⟨?_, ?_⟩
        · intro u hu
          obtain ⟨hne, hsome⟩ := hnew u hu
          exact hPres u (fun hh => hne hh.symm) hsome
        · intro b hb
          rw [hGb b, isSome_omap, isSome_omap]
          exact hnewb b hb
      · rw [if_neg hwv] at hw
        rcases hbase : alook g.values w with _ | dw0
        · rw [hbase] at hw
          exact Option.noConfusion hw
        · rw [hbase] at hw
          simp only [Option.map] at hw
          injection hw with hw
          obtain ⟨hclv, hclb⟩ := hcl w dw0 hbase
          have hkind : dw.kind = dw0.kind := by
            rw [← hw]
            exact kind_comp _ _ dw0
          constructor
          · intro u hu
            rw [hkind] at hu
            by_cases hvu : v = u
            · rw [← hvu, hDGfv]
              rfl
            · exact hPres u hvu (hclv u hu)
          · intro b hb
            rw [hkind] at hb
            rw [hGb b, isSome_omap, isSome_omap]
            exact hclb b hb
    · -- ValCons
      intro u du hdu w
      by_cases hvu : v = u
      · subst hvu
        rw [hDGfv] at hdu
        injection hdu with hdu
        subst hdu
        rw [htransfer]
        have base := hvc v old hDGgv w
        by_cases hwv : v = w
        · subst hwv
          constructor
          · intro h
            obtain ⟨dw, hdw, hmem⟩ := base.mp h
            rw [hold] at hdw
            injection hdw with hdw
            subst hdw
            exact absurd hmem hvnotold
          · rintro ⟨dw, hdw, hmem⟩
            rw [hGv v, if_pos rfl] at hdw
            injection hdw with hdw
            subst hdw
            exact absurd hmem hvNnew
        · have hwv' : ¬ w = v := fun hh => hwv hh.symm
          rw [base]
          constructor
          · rintro ⟨dw0, hdw0, hmem⟩
            refine ⟨(fun d => if w ∈ data.kind.valueUses then insUB v d else d)
              ((fun d => if w ∈ old.kind.valueUses then remUB v d else d) dw0), ?_, ?_⟩
            · rw [hGv w, if_neg hwv, hdw0]
              rfl
            · show v ∈ (if w ∈ data.kind.valueUses then insUB v _ else _).kind.valueUses
              rw [kind_comp]
              exact hmem
          · rintro ⟨dw, hdw, hmem⟩
            rw [hGv w, if_neg hwv] at hdw
            rcases hbase : alook g.values w with _ | dw0
            · rw [hbase] at hdw
              exact Option.noConfusion hdw
            · rw [hbase] at hdw
              simp only [Option.map] at hdw
              injection hdw with hdw
              rw [← hdw, kind_comp] at hmem
              exact ⟨dw0, rfl, hmem⟩
      · rw [hDGf u hvu] at hdu
        rcases hbase : dataGet g u with _ | du0
        · rw [hbase] at hdu
          exact Option.noConfusion hdu
        · rw [hbase] at hdu
          simp only [Option.map] at hdu
          injection hdu with hdu
          by_cases hwv : v = w
          · subst hwv
            have hLHS : v ∈ du.usedBy ↔ u ∈ data.kind.valueUses := by
              rw [← hdu, mem_comp_usedBy_self]
              have hold_iff : v ∈ du0.usedBy ↔ u ∈ old.kind.valueUses := by
                rw [hvc u du0 hbase v]
                constructor
                · rintro ⟨dw, hdw, hmem⟩
                  rw [hold] at hdw
                  injection hdw with hdw
                  subst hdw
                  exact hmem
                · intro h
                  exact ⟨old, hold, h⟩
              rw [hold_iff]
              by_cases h1 : u ∈ data.kind.valueUses <;> by_cases h2 : u ∈ old.kind.valueUses <;>
                simp [h1, h2]
            rw [hLHS]
            constructor
            · intro h
              exact ⟨data, by rw [hGv v, if_pos rfl], h⟩
            · rintro ⟨dw, hdw, hmem⟩
              rw [hGv v, if_pos rfl] at hdw
              injection hdw with hdw
              subst hdw
              exact hmem
          · have hwv' : ¬ w = v := fun hh => hwv hh.symm
            have hLHS : w ∈ du.usedBy ↔ w ∈ du0.usedBy := by
              rw [← hdu]
              exact mem_comp_usedBy_ne hwv' _ _ du0
            have hRHS : (∃ dw, alook ({ g4 with values := ains g4.values v data } : DFG).values w
                  = some dw ∧ u ∈ dw.kind.valueUses) ↔
                (∃ dw, alook g.values w = some dw ∧ u ∈ dw.kind.valueUses) := by
              constructor
              · rintro ⟨dw, hdw, hmem⟩
                rw [hGv w, if_neg hwv] at hdw
                rcases hbase2 : alook g.values w with _ | dw0'
                · rw [hbase2] at hdw
                  exact Option.noConfusion hdw
                · rw [hbase2] at hdw
                  simp only [Option.map] at hdw
                  injection hdw with hdw
                  rw [← hdw, kind_comp] at hmem
                  exact ⟨dw0', rfl, hmem⟩
              · rintro ⟨dw0', hdw0, hmem⟩
                refine ⟨(fun d => if w ∈ data.kind.valueUses then insUB v d else d)
                  ((fun d => if w ∈ old.kind.valueUses then remUB v d else d) dw0'), ?_, ?_⟩
                · rw [hGv w, if_neg hwv, hdw0]
                  rfl
                · show u ∈ (if w ∈ data.kind.valueUses then insUB v _ else _).kind.valueUses
                  rw [kind_comp]
                  exact hmem
            rw [hLHS, hRHS]
            exact hvc u du0 hbase w
    · -- BBCons
      intro b db hdb w
      rw [hGb b] at hdb
      rcases hbase : alook g.bbs b with _ | db0
      · rw [hbase] at hdb
        exact Option.noConfusion hdb
      · rw [hbase] at hdb
        simp only [Option.map] at hdb
        injection hdb with hdb
        by_cases hwv : v = w
        · subst hwv
          have hLHS : v ∈ db.usedBy ↔ b ∈ data.kind.bbUses := by
            rw [← hdb, mem_comp_usedBybb_self]
            have hold_iff : v ∈ db0.usedBy ↔ b ∈ old.kind.bbUses := by
              rw [hbc b db0 hbase v]
              constructor
              · rintro ⟨dw, hdw, hmem⟩
                rw [hold] at hdw
                injection hdw with hdw
                subst hdw
                exact hmem
              · intro h
                exact ⟨old, hold, h⟩
            rw [hold_iff]
            by_cases h1 : b ∈ data.kind.bbUses <;> by_cases h2 : b ∈ old.kind.bbUses <;>
              simp [h1, h2]
          rw [hLHS]
          constructor
          · intro h
            exact ⟨data, by rw [hGv v, if_pos rfl], h⟩
          · rintro ⟨dw, hdw, hmem⟩
            rw [hGv v, if_pos rfl] at hdw
            injection hdw with hdw
            subst hdw
            exact hmem
        · have hwv' : ¬ w = v := fun hh => hwv hh.symm
          have hLHS : w ∈ db.usedBy ↔ w ∈ db0.usedBy := by
            rw [← hdb]
            exact mem_comp_usedBybb_ne hwv' _ _ db0
          have hRHS : (∃ dw, alook ({ g4 with values := ains g4.values v data } : DFG).values w
                = some dw ∧ b ∈ dw.kind.bbUses) ↔
              (∃ dw, alook g.values w = some dw ∧ b ∈ dw.kind.bbUses) := by
            constructor
            · rintro ⟨dw, hdw, hmem⟩
              rw [hGv w, if_neg hwv] at hdw
              rcases hbase2 : alook g.values w with _ | dw0'
              · rw [hbase2] at hdw
                exact Option.noConfusion hdw
              · rw [hbase2] at hdw
                simp only [Option.map] at hdw
                injection hdw with hdw
                rw [← hdw, kind_comp] at hmem
                exact ⟨dw0', rfl, hmem⟩
            · rintro ⟨dw0', hdw0, hmem⟩
              refine ⟨(fun d => if w ∈ data.kind.valueUses then insUB v d else d)
                ((fun d => if w ∈ old.kind.valueUses then remUB v d else d) dw0'), ?_, ?_⟩
              · rw [hGv w, if_neg hwv, hdw0]
                rfl
              · show b ∈ (if w ∈ data.kind.valueUses then insUB v _ else _).kind.bbUses
                rw [kind_comp]
                exact hmem
          rw [hLHS, hRHS]
          exact hbc b db0 hbase w

end Arena

namespace Arena

theorem mem_rem_ne {v w : Nat} (hwv : ¬ w = v) (c : Prop) [Decidable c] (dd : EValueData) :
    (w ∈ (if c then remUB v dd else dd).usedBy ↔ w ∈ dd.usedBy) := by
  by_cases h : c <;> simp [h, remUB, Finset.mem_erase, hwv]

theorem kind_rem {v : Nat} (c : Prop) [Decidable c] (dd : EValueData) :
    (if c then remUB v dd else dd).kind = dd.kind := by
  by_cases h : c <;> simp [h, remUB]

theorem mem_rembb_ne {v w : Nat} (hwv : ¬ w = v) (c : Prop) [Decidable c] (dd : EBBData) :
    (w ∈ (if c then remUBbb v dd else dd).usedBy ↔ w ∈ dd.usedBy) := by
  by_cases h : c <;> simp [h, remUBbb, Finset.mem_erase, hwv]

/-- `remove_value` of an unused value preserves the use-record
invariant (the preconditions beyond `used_by = ∅` are consequences of the
invariant itself). -/
theorem removeValue_preserves (g : DFG) (hInv : Inv g) (v : Nat) (old : EValueData)
    (hold : alook g.values v = some old) (hub : old.usedBy = ∅) :
    ∃ g', removeValue g v = .ok (g', old) ∧ Inv g' := by
  obtain ⟨hdisj, hcl, hvc, hbc⟩ := hInv
  have hglv : alook g.globals v = none := by
    rcases hh : alook g.globals v with _ | dd
    · rfl
    · have := hdisj v (by rw [hh]; rfl)
      rw [hold] at this
      exact Option.noConfusion this
  have hDGgv : dataGet g v = some old := by
    unfold dataGet
    rw [hglv]
    exact hold
  have hvnotold : v ∉ old.kind.valueUses := by
    intro h
    have := (hvc v old hDGgv v).mpr ⟨old, hold, h⟩
    rw [hub] at this
    simp at this
  have hnouse : ∀ w dw, alook g.values w = some dw → v ∉ dw.kind.valueUses := by
    intro w dw h hmem
    have := (hvc v old hDGgv w).mpr ⟨dw, h, hmem⟩
    rw [hub] at this
    simp at this
  have hG0g : ∀ x, alook ({ g with values := aerase g.values v } : DFG).globals x
      = alook g.globals x := fun x => rfl
  have hG0v : ∀ x, alook ({ g with values := aerase g.values v } : DFG).values x
      = if v = x then none else alook g.values x := by
    intro x
    exact alook_aerase g.values v x
  have hdisj0 : ∀ k, (alook ({ g with values := aerase g.values v } : DFG).globals k).isSome →
      alook ({ g with values := aerase g.values v } : DFG).values k = none := by
    intro k hk
    rw [hG0v]
    rw [hG0g] at hk
    rw [hdisj k hk]
    simp
  have hDG0 : ∀ u, ¬ v = u → dataGet { g with values := aerase g.values v } u = dataGet g u := by
    intro u hvu
    unfold dataGet
    rcases hx : alook g.globals u with _ | dd
    · show alook (aerase g.values v) u = alook g.values u
      rw [alook_aerase, if_neg hvu]
    · rfl
  have hpres0 : ∀ u ∈ old.kind.valueUses,
      (dataGet { g with values := aerase g.values v } u).isSome := by
    intro u hu
    have hvu : ¬ v = u := fun hh => hvnotold (hh ▸ hu)
    rw [hDG0 u hvu]
    exact (hcl v old hold).1 u hu
  have hfrem : ∀ dd : EValueData, remUB v (remUB v dd) = remUB v dd := by
    intro dd
    simp [remUB, Finset.erase_idem]
  obtain ⟨g1, hrun1, hgl1, hvl1, hbb1⟩ :=
    modDataAll_spec (remUB v) hfrem old.kind.valueUses
      { g with values := aerase g.values v } hdisj0 hpres0
  have hpresb1 : ∀ b ∈ old.kind.bbUses, (alook g1.bbs b).isSome := by
    intro b hb
    rw [hbb1]
    exact (hcl v old hold).2 b hb
  have hfremb : ∀ dd : EBBData, remUBbb v (remUBbb v dd) = remUBbb v dd := by
    intro dd
    simp [remUBbb, Finset.erase_idem]
  obtain ⟨g2, hrun2, hbb2, hgl2, hvl2⟩ :=
    modBBAll_spec (remUBbb v) hfremb old.kind.bbUses g1 hpresb1
  refine ⟨g2, ?_, ?_⟩
  · rw [removeValue, hold]
    show (if old.usedBy = ∅ then
        match modDataAll (remUB v) { g with values := aerase g.values v } old.kind.valueUses with
        | .error g1 => Except.error g1
        | .ok g1 =>
          match modBBAll (remUBbb v) g1 old.kind.bbUses with
          | .error g2 => Except.error g2
          | .ok g2 => Except.ok (g2, old)
      else Except.error { g with values := aerase g.values v }) = Except.ok (g2, old)
    rw [if_pos hub, hrun1]
    show (match modBBAll (remUBbb v) g1 old.kind.bbUses with
      | .error g2 => Except.error g2
      | .ok g2 => Except.ok (g2, old)) = Except.ok (g2, old)
    rw [hrun2]
  · have hGg : ∀ x, alook g2.globals x
        = (alook g.globals x).map (fun d => if x ∈ old.kind.valueUses then remUB v d else d) := by
      intro x
      rw [hgl2]
      exact hgl1 x
    have hGv : ∀ x, alook g2.values x
        = if v = x then none
          else (alook g.values x).map (fun d => if x ∈ old.kind.valueUses then remUB v d else d) := by
      intro x
      rw [hvl2, hvl1 x, hG0v x]
      by_cases hx : v = x
      · rw [if_pos hx, if_pos hx]
        rfl
      · rw [if_neg hx, if_neg hx]
    have hGb : ∀ x, alook g2.bbs x
        = (alook g.bbs x).map (fun d => if x ∈ old.kind.bbUses then remUBbb v d else d) := by
      intro x
      rw [hbb2 x, hbb1]
    have hDGf : ∀ u, ¬ v = u →
        dataGet g2 u
          = (dataGet g u).map (fun d => if u ∈ old.kind.valueUses then remUB v d else d) := by
      intro u hvu
      unfold dataGet
      rw [hGg u]
      rcases hx : alook g.globals u with _ | dd
      · show alook g2.values u = _
        rw [hGv u, if_neg hvu]
      · rfl
    have hDGfv : dataGet g2 v = none := by
      unfold dataGet
      rw [hGg v, hglv]
      show alook g2.values v = none
      rw [hGv v, if_pos rfl]
    have hPres : ∀ u, ¬ v = u → (dataGet g u).isSome → (dataGet g2 u).isSome := by
      intro u hvu hu
      rw [hDGf u hvu, isSome_omap]
      exact hu
    refine ⟨?_, ?_, ?_, ?_⟩
    · -- Disj
      intro k hk
      rw [hGg k, isSome_omap] at hk
      rw [hGv k]
      by_cases hkv : v = k
      · rw [if_pos hkv]
      · rw [if_neg hkv, hdisj k hk]
        rfl
    · -- Closed
      intro w dw hw
      rw [hGv w] at hw
      by_cases hwv : v = w
      · rw [if_pos hwv] at hw
        exact Option.noConfusion hw
      · rw [if_neg hwv] at hw
        rcases hbase : alook g.values w with _ | dw0
        · rw [hbase] at hw
          exact Option.noConfusion hw
        · rw [hbase] at hw
          simp only [Option.map] at hw
          injection hw with hw
          obtain ⟨hclv, hclb⟩ := hcl w dw0 hbase
          have hkind : dw.kind = dw0.kind := by
            rw [← hw]
            exact kind_rem _ dw0
          constructor
          · intro u hu
            rw [hkind] at hu
            have hvu : ¬ v = u := by
              intro hh
              exact hnouse w dw0 hbase (hh ▸ hu)
            exact hPres u hvu (hclv u hu)
          · intro b hb
            rw [hkind] at hb
            rw [hGb b, isSome_omap]
            exact hclb b hb
    · -- ValCons
      intro u du hdu w
      by_cases hvu : v = u
      · rw [← hvu, hDGfv] at hdu
        exact Option.noConfusion hdu
      · rw [hDGf u hvu] at hdu
        rcases hbase : dataGet g u with _ | du0
        · rw [hbase] at hdu
          exact Option.noConfusion hdu
        · rw [hbase] at hdu
          simp only [Option.map] at hdu
          injection hdu with hdu
          by_cases hwv : v = w
          · constructor
            · intro h
              exfalso
              rw [← hdu, ← hwv] at h
              by_cases huL : u ∈ old.kind.valueUses
              · rw [if_pos huL, remUB_usedBy] at h
                exact Finset.not_mem_erase v du0.usedBy h
              · rw [if_neg huL] at h
                obtain ⟨dw, hdw, hmem⟩ := (hvc u du0 hbase v).mp h
                rw [hold] at hdw
                injection hdw with hdw
                subst hdw
                exact huL hmem
            · rintro ⟨dw, hdw, hmem⟩
              rw [hGv w, ← hwv, if_pos rfl] at hdw
              exact Option.noConfusion hdw
          · have hwv' : ¬ w = v := fun hh => hwv hh.symm
            have hLHS : w ∈ du.usedBy ↔ w ∈ du0.usedBy := by
              rw [← hdu]
              exact mem_rem_ne hwv' _ du0
            have hRHS : (∃ dw, alook g2.values w = some dw ∧ u ∈ dw.kind.valueUses) ↔
                (∃ dw, alook g.values w = some dw ∧ u ∈ dw.kind.valueUses) := by
              constructor
              · rintro ⟨dw, hdw, hmem⟩
                rw [hGv w, if_neg hwv] at hdw
                rcases hbase2 : alook g.values w with _ | dw0'
                · rw [hbase2] at hdw
                  exact Option.noConfusion hdw
                · rw [hbase2] at hdw
                  simp only [Option.map] at hdw
                  injection hdw with hdw
                  rw [← hdw, kind_rem] at hmem
                  exact ⟨dw0', rfl, hmem⟩
              · rintro ⟨dw0', hdw0, hmem⟩
                refine ⟨(fun d => if w ∈ old.kind.valueUses then remUB v d else d) dw0', ?_, ?_⟩
                · rw [hGv w, if_neg hwv, hdw0]
                  rfl
                · show u ∈ (if w ∈ old.kind.valueUses then remUB v dw0' else dw0').kind.valueUses
                  rw [kind_rem]
                  exact hmem
            rw [hLHS, hRHS]
            exact hvc u du0 hbase w
    · -- BBCons
      intro b db hdb w
      rw [hGb b] at hdb
      rcases hbase : alook g.bbs b with _ | db0
      · rw [hbase] at hdb
        exact Option.noConfusion hdb
      · rw [hbase] at hdb
        simp only [Option.map] at hdb
        injection hdb with hdb
        by_cases hwv : v = w
        · constructor
          · intro h
            exfalso
            rw [← hdb, ← hwv] at h
            by_cases hbB : b ∈ old.kind.bbUses
            · rw [if_pos hbB, remUBbb_usedBy] at h
              exact Finset.not_mem_erase v db0.usedBy h
            · rw [if_neg hbB] at h
              obtain ⟨dw, hdw, hmem⟩ := (hbc b db0 hbase v).mp h
              rw [hold] at hdw
              injection hdw with hdw
              subst hdw
              exact hbB hmem
          · rintro ⟨dw, hdw, hmem⟩
            rw [hGv w, ← hwv, if_pos rfl] at hdw
            exact Option.noConfusion hdw
        · have hwv' : ¬ w = v := fun hh => hwv hh.symm
          have hLHS : w ∈ db.usedBy ↔ w ∈ db0.usedBy := by
            rw [← hdb]
            exact mem_rembb_ne hwv' _ db0
          have hRHS : (∃ dw, alook g2.values w = some dw ∧ b ∈ dw.kind.bbUses) ↔
              (∃ dw, alook g.values w = some dw ∧ b ∈ dw.kind.bbUses) := by
            constructor
            · rintro ⟨dw, hdw, hmem⟩
              rw [hGv w, if_neg hwv] at hdw
              rcases hbase2 : alook g.values w with _ | dw0'
              · rw [hbase2] at hdw
                exact Option.noConfusion hdw
              · rw [hbase2] at hdw
                simp only [Option.map] at hdw
                injection hdw with hdw
                rw [← hdw, kind_rem] at hmem
                exact ⟨dw0', rfl, hmem⟩
            · rintro ⟨dw0', hdw0, hmem⟩
              refine ⟨(fun d => if w ∈ old.kind.valueUses then remUB v d else d) dw0', ?_, ?_⟩
              · rw [hGv w, if_neg hwv, hdw0]
                rfl
              · show b ∈ (if w ∈ old.kind.valueUses then remUB v dw0' else dw0').kind.bbUses
                rw [kind_rem]
                exact hmem
          rw [hLHS, hRHS]
          exact hbc b db0 hbase w

/-- The example graph `exG` satisfies the use-record invariant. -/
theorem inv_exG : Inv exG := by
  have hv0 : alook exG.values 0 = some (⟨.i32, .integer 5, {1}⟩ : EValueData) := rfl
  have hv1 : alook exG.values 1 = some (⟨.i32, .binary .add 0 0, ∅⟩ : EValueData) := rfl
  refine ⟨?_, ?_, ?_, ?_⟩
  · intro k hk
    simp [exG, alook] at hk
  · intro w dw h
    by_cases h0 : (0 : Nat) = w
    · rw [← h0, hv0] at h
      injection h with h
      subst h
      exact ⟨by intro u hu; simp [EValueKind.valueUses] at hu,
             by intro b hb; simp [EValueKind.bbUses] at hb⟩
    · by_cases h1 : (1 : Nat) = w
      · rw [← h1, hv1] at h
        injection h with h
        subst h
        refine ⟨?_, by intro b hb; simp [EValueKind.bbUses] at hb⟩
        intro u hu
        simp [EValueKind.valueUses] at hu
        subst hu
        rfl
      · have : alook exG.values w = none := by
          simp [exG, alook, h0, h1]
        rw [this] at h
        exact Option.noConfusion h
  · intro u du h w
    have hDGu : dataGet exG u = alook exG.values u := rfl
    rw [hDGu] at h
    by_cases h0 : (0 : Nat) = u
    · rw [← h0, hv0] at h
      injection h with h
      subst h
      constructor
      · intro hw
        have hw1 : w = 1 := by
          have := Finset.mem_singleton.mp hw
          exact this
        subst hw1
        exact ⟨⟨.i32, .binary .add 0 0, ∅⟩, hv1, by rw [← h0]; decide⟩
      · rintro ⟨dw, hdw, hmem⟩
        by_cases hw0 : (0 : Nat) = w
        · rw [← hw0, hv0] at hdw
          injection hdw with hdw
          subst hdw
          rw [← h0] at hmem
          simp [EValueKind.valueUses] at hmem
        · by_cases hw1 : (1 : Nat) = w
          · rw [← hw1]
            decide
          · have : alook exG.values w = none := by
              simp [exG, alook, hw0, hw1]
            rw [this] at hdw
            exact Option.noConfusion hdw
    · by_cases h1 : (1 : Nat) = u
      · rw [← h1, hv1] at h
        injection h with h
        subst h
        constructor
        · intro hw
          simp at hw
        · rintro ⟨dw, hdw, hmem⟩
          exfalso
          by_cases hw0 : (0 : Nat) = w
          · rw [← hw0, hv0] at hdw
            injection hdw with hdw
            subst hdw
            rw [← h1] at hmem
            simp [EValueKind.valueUses] at hmem
          · by_cases hw1 : (1 : Nat) = w
            · rw [← hw1, hv1] at hdw
              injection hdw with hdw
              subst hdw
              rw [← h1] at hmem
              simp [EValueKind.valueUses] at hmem
            · have : alook exG.values w = none := by
                simp [exG, alook, hw0, hw1]
              rw [this] at hdw
              exact Option.noConfusion hdw
      · have : alook exG.values u = none := by
          simp [exG, alook, h0, h1]
        rw [this] at h
        exact Option.noConfusion h
  · intro b db h
    simp [exG, alook] at h

/-- C10 (amended): the bidirectional use-record invariant — `v` is in
`u`'s `used_by` set iff the local value `v` exists and its data lists `u`
among its value uses, and a basic block's `used_by` set holds exactly the
value handles whose data lists it among their block uses (together with
key-space disjointness and closedness of the use references) — is
preserved by `new_value` on freshly constructed data (empty `used_by`,
fresh handle, existing uses), by `remove_value` on an unused value, and
by `replace_value_with` provided the supplied data's `used_by` set equals
the replaced value's current one and neither data involves `v` as its own
operand.  (With freshly constructed data — empty `used_by` — and a still
used `v`, `replace_value_with` violates the invariant.) -/
theorem dfg_consistency_preserved (g : DFG) (hInv : Inv g) :
    (∀ nv data, dataGet g nv = none → data.usedBy = ∅ →
      (∀ u ∈ data.kind.valueUses, (dataGet g u).isSome) →
      (∀ b ∈ data.kind.bbUses, (alook g.bbs b).isSome) →
      ∃ g', newValue g nv data = .ok g' ∧ Inv g') ∧
    (∀ v old data, alook g.values v = some old → data.usedBy = old.usedBy →
      v ∉ old.kind.valueUses →
      (∀ u ∈ data.kind.valueUses, u ≠ v ∧ (dataGet g u).isSome) →
      (∀ b ∈ data.kind.bbUses, (alook g.bbs b).isSome) →
      ∃ g', replaceValueWith g v data = .ok (g', old) ∧ Inv g') ∧
    (∀ v old, alook g.values v = some old → old.usedBy = ∅ →
      ∃ g', removeValue g v = .ok (g', old) ∧ Inv g') :=
  ⟨fun nv data h1 h2 h3 h4 => newValue_preserves g hInv nv data h1 h2 h3 h4,
   fun v old data h1 h2 h3 h4 h5 => replaceValueWith_preserves g hInv v old data h1 h2 h3 h4 h5,
   fun v old h1 h2 => removeValue_preserves g hInv v old h1 h2⟩

/-- C10 counterexample: in `exG` the invariant holds and `0` is used by
`1`.  `replace_value_with 0` with a freshly constructed data (`used_by`
empty, as every `ValueData` constructor yields) succeeds but loses the
use record: in the result, `1` still lists `0` among its value uses while
`0`'s `used_by` set is empty — the invariant is broken, so the claim that
`replace_value_with` preserves it unconditionally is false. -/
theorem replace_breaks_consistency :
    Inv exG ∧
    replaceValueWith exG 0 exFresh
      = Except.ok (exGBroken, (⟨.i32, .integer 5, {1}⟩ : EValueData)) ∧
    ¬ Inv exGBroken := by
  refine ⟨inv_exG, rfl, ?_⟩
  rintro ⟨_, _, hvc, _⟩
  have h1 : dataGet exGBroken 0 = some exFresh := rfl
  have := (hvc 0 exFresh h1 1).mpr
    ⟨⟨.i32, .binary .add 0 0, ∅⟩, rfl, by decide⟩
  simp [exFresh] at this

theorem dfg_consistency_preserved_witness :
    ∃ g', removeValue exG 1
        = Except.ok (g', (⟨.i32, .binary .add 0 0, ∅⟩ : EValueData)) ∧ Inv g' :=
  (dfg_consistency_preserved exG inv_exG).2.2 1 ⟨.i32, .binary .add 0 0, ∅⟩ rfl rfl

end Arena
